import Mathlib

/-!
Verification development for the i3-manager repository
(`i3manager/manager.py`).  The Python code is shallowly embedded:
pure methods become Lean functions, the `Manager` object becomes an
explicit state record, event handlers become state-transition
functions returning `Option` (where `none` models an uncaught Python
exception), and the unbounded allocator loop is given explicit fuel
that is proved sufficient.
-/

namespace I3M

/-- Maximum length of a workspace's focus-order deque:
`collections.deque(maxlen=50)` in `Workspace.__init__`. -/
def focusOrderMax : Nat := 50

/-- Embeds the `Workspace` object: fields `num`, `name` and the
`focus_order` deque of container ids (`manager.py`, `Workspace.__init__`). -/
structure Workspace where
  num : Int
  name : String
  focus_order : List Nat
deriving DecidableEq

/-- Embeds `deque.append` on a deque created with `maxlen=50`: when the
deque already holds `maxlen` elements the leftmost element is evicted. -/
def dequeAppend (l : List Nat) (x : Nat) : List Nat :=
  if l.length < focusOrderMax then l ++ [x] else l.tail ++ [x]

/-- Embeds `Workspace.on_window_focus`: `focus_order.remove(con.id)`
(ignoring `ValueError`), then `focus_order.append(con.id)`. -/
def Workspace.on_window_focus (w : Workspace) (cid : Nat) : Workspace :=
  { w with focus_order := dequeAppend (w.focus_order.erase cid) cid }

/-- Embeds `Workspace.on_window_close`: `focus_order.remove(con.id)`
(ignoring `ValueError`). -/
def Workspace.on_window_close (w : Workspace) (cid : Nat) : Workspace :=
  { w with focus_order := w.focus_order.erase cid }

/-- Embeds `Workspace.clear`: `focus_order.clear()`. -/
def Workspace.clear (w : Workspace) : Workspace :=
  { w with focus_order := [] }

/-- Embeds `Workspace.has_container`: `focus_order.count(con.id) > 0`. -/
def Workspace.has_container (w : Workspace) (cid : Nat) : Bool :=
  w.focus_order.count cid > 0

/-- One call in a focus-history trace: either `on_window_focus` or
`on_window_close` with a container id. -/
inductive FocusCall where
  | focusCall (cid : Nat)
  | closeCall (cid : Nat)
deriving DecidableEq

/-- Apply one traced call to a `Workspace`. -/
def applyFocusCall (w : Workspace) : FocusCall → Workspace
  | .focusCall cid => w.on_window_focus cid
  | .closeCall cid => w.on_window_close cid

/-- Run a sequence of `on_window_focus`/`on_window_close` calls. -/
def runFocusCalls (w : Workspace) (calls : List FocusCall) : Workspace :=
  calls.foldl applyFocusCall w

/-- Focus-order invariant: no duplicate ids and bounded length. -/
def FOInv (l : List Nat) : Prop := l.Nodup ∧ l.length ≤ focusOrderMax

theorem dequeAppend_nodup {l : List Nat} {x : Nat} (hn : l.Nodup) (hx : x ∉ l) :
    (dequeAppend l x).Nodup := by
  unfold dequeAppend
  split
  · simp [List.nodup_append, hn, hx]
  · have ht : l.tail.Nodup := (List.tail_sublist l).nodup hn
    have hxt : x ∉ l.tail := fun h => hx ((List.tail_sublist l).mem h)
    simp [List.nodup_append, ht, hxt]

theorem dequeAppend_length {l : List Nat} {x : Nat} (h : l.length ≤ focusOrderMax) :
    (dequeAppend l x).length ≤ focusOrderMax := by
  unfold dequeAppend focusOrderMax at *
  split <;> simp [List.length_tail] <;> omega

theorem dequeAppend_getLast? (l : List Nat) (x : Nat) :
    (dequeAppend l x).getLast? = some x := by
  unfold dequeAppend
  split <;> exact List.getLast?_concat _

theorem getLast?_erase_of_ne {w v : Nat} :
    ∀ {l : List Nat}, l.getLast? = some w → v ≠ w → (l.erase v).getLast? = some w
  | [], h, _ => by simp at h
  | [a], h, hne => by
      simp only [List.getLast?_singleton, Option.some.injEq] at h
      subst h
      rw [List.erase_cons]
      simp [Ne.symm hne]
  | a :: b :: t, h, hne => by
      rw [List.getLast?_cons_cons] at h
      rw [List.erase_cons]
      by_cases hav : a = v
      · simpa [hav] using h
      · rw [if_neg (by simpa using hav)]
        have h2 := getLast?_erase_of_ne (l := b :: t) h hne
        cases hm : (b :: t).erase v with
        | nil => rw [hm] at h2; simp at h2
        | cons c m => rw [hm] at h2; rw [List.getLast?_cons_cons]; exact h2

theorem applyFocusCall_inv {w : Workspace} (h : FOInv w.focus_order) (c : FocusCall) :
    FOInv (applyFocusCall w c).focus_order := by
  obtain ⟨hn, hl⟩ := h
  cases c with
  | focusCall cid =>
    refine ⟨dequeAppend_nodup (hn.erase _) (fun hm => ?_),
            dequeAppend_length (le_trans (List.erase_sublist _ _).length_le hl)⟩
    exact absurd ((List.Nodup.mem_erase_iff hn).mp hm).1 (by simp)
  | closeCall cid =>
    exact ⟨hn.erase _, le_trans (List.erase_sublist _ _).length_le hl⟩

theorem runFocusCalls_inv (calls : List FocusCall) (w : Workspace) (h : FOInv w.focus_order) :
    FOInv (runFocusCalls w calls).focus_order := by
  induction calls generalizing w with
  | nil => exact h
  | cons c cs ih => exact ih _ (applyFocusCall_inv h c)

theorem runFocusCalls_getLast? (calls : List FocusCall) (w : Workspace) {x : Nat}
    (h : w.focus_order.getLast? = some x)
    (hf : ∀ c, FocusCall.focusCall c ∉ calls)
    (hc : FocusCall.closeCall x ∉ calls) :
    (runFocusCalls w calls).focus_order.getLast? = some x := by
  induction calls generalizing w with
  | nil => exact h
  | cons c cs ih =>
    cases c with
    | focusCall cid => exact absurd (List.mem_cons_self _ _) (hf cid)
    | closeCall v =>
      have hvx : v ≠ x := by
        rintro rfl
        exact hc (List.mem_cons_self _ _)
      refine ih _ (getLast?_erase_of_ne h hvx) (fun c hm => hf c (List.mem_cons_of_mem _ hm))
        (fun hm => hc (List.mem_cons_of_mem _ hm))

/-- C1 (amended): for every sequence of `on_window_focus`/`on_window_close`
calls starting from a fresh `Workspace`, `focus_order` has no duplicate ids,
has length at most 50, and — provided the most recently focused id was not
subsequently passed to `on_window_close` — ends with the id of the most
recent `on_window_focus` call. -/
theorem C1_focus_order_invariant (n : Int) (s : String) (calls : List FocusCall) :
    ((runFocusCalls ⟨n, s, []⟩ calls).focus_order).Nodup ∧
    ((runFocusCalls ⟨n, s, []⟩ calls).focus_order).length ≤ focusOrderMax ∧
    (∀ pre w suf, calls = pre ++ FocusCall.focusCall w :: suf →
      (∀ c, FocusCall.focusCall c ∉ suf) → FocusCall.closeCall w ∉ suf →
      ((runFocusCalls ⟨n, s, []⟩ calls).focus_order).getLast? = some w) := by
  have base : FOInv (Workspace.mk n s []).focus_order := ⟨List.nodup_nil, by simp⟩
  refine ⟨(runFocusCalls_inv calls _ base).1, (runFocusCalls_inv calls _ base).2, ?_⟩
  rintro pre w suf rfl hf hc
  have hsplit : runFocusCalls ⟨n, s, []⟩ (pre ++ FocusCall.focusCall w :: suf)
      = runFocusCalls (applyFocusCall (runFocusCalls ⟨n, s, []⟩ pre) (FocusCall.focusCall w)) suf := by
    simp [runFocusCalls, List.foldl_append]
  rw [hsplit]
  exact runFocusCalls_getLast? suf _ (dequeAppend_getLast? _ _) hf hc

/-- Witness for C1 (amended), at the concrete trace focus 5 then close 7. -/
theorem C1_focus_order_invariant_witness :
    ((runFocusCalls ⟨1, "ws", []⟩ [FocusCall.focusCall 5, FocusCall.closeCall 7]).focus_order).getLast?
      = some 5 :=
  (C1_focus_order_invariant 1 "ws" _).2.2 [] 5 [FocusCall.closeCall 7] rfl
    (by intro c h; simp at h) (by simp)

/-- Counterexample to C1 as stated: after `on_window_focus 1` followed by
`on_window_close 1`, `focus_order` is empty, so its last element is not the
id passed to the most recent `on_window_focus` call. -/
theorem C1_counterexample :
    (runFocusCalls ⟨1, "ws", []⟩ [FocusCall.focusCall 1, FocusCall.closeCall 1]).focus_order = [] ∧
    (runFocusCalls ⟨1, "ws", []⟩ [FocusCall.focusCall 1, FocusCall.closeCall 1]).focus_order.getLast?
      ≠ some 1 := by
  constructor <;> decide

/-! ### Numbering allocator (`Manager._init`, renumbering loop)

The Python loop `for i in itertools.chain((preferred,), itertools.count(start))`
tries `preferred` first and then `start, start+1, start+2, …`, skipping numbers
already used on the output, and stops at the first free one.  The unbounded
`itertools.count` scan is embedded with explicit fuel, proved sufficient
(`nums.card + 1` candidates always contain a free one). -/

/-- Embeds the `itertools.count(start)` part of the scan: the first integer
`start + k` (k = 0, 1, 2, …) not in `nums`, searched with explicit fuel. -/
def scanFree (nums : Finset Int) : Int → Nat → Option Int
  | _, 0 => none
  | start, fuel + 1 => if start ∈ nums then scanFree nums (start + 1) fuel else some start

/-- Embeds the candidate selection of the renumbering loop in `Manager._init`:
`preferred = start + (num % 100) - 1` is tried first, then the linear scan. -/
def allocateNum (start : Int) (nums : Finset Int) (num : Int) : Option Int :=
  let preferred := start + num % 100 - 1
  if preferred ∈ nums then scanFree nums start (nums.card + 1) else some preferred

/-- Embeds the rename-command construction of `Manager._init`: a name differing
from the numeric string keeps its suffix, otherwise the rename is numeric. -/
def renameCommand (wsNum : Int) (wsName : String) (tgt : Int) : String :=
  if wsName ≠ toString wsNum then
    "rename workspace \"" ++ toString wsNum ++ ":" ++ wsName ++ "\" to \"" ++
      toString tgt ++ ":" ++ wsName ++ "\""
  else
    "rename workspace " ++ toString wsNum ++ " to " ++ toString tgt

/-- One full iteration of the renumbering loop: choose the number, then issue
the rename command naming it. -/
def renumberStep (start : Int) (nums : Finset Int) (wsNum : Int) (wsName : String) :
    Option String :=
  (allocateNum start nums wsNum).map (renameCommand wsNum wsName)

theorem scanFree_spec (nums : Finset Int) :
    ∀ (fuel : Nat) (start : Int), (∃ k : Nat, k < fuel ∧ start + (k : Int) ∉ nums) →
      ∃ k : Nat, scanFree nums start fuel = some (start + (k : Int)) ∧
        start + (k : Int) ∉ nums ∧ ∀ j : Nat, j < k → start + (j : Int) ∈ nums
  | 0, _, h => by
      obtain ⟨k, hk, _⟩ := h
      omega
  | fuel + 1, start, h => by
      by_cases hs : start ∈ nums
      · obtain ⟨k, hk, hfree⟩ := h
        have hk0 : k ≠ 0 := by
          rintro rfl
          simp only [Nat.cast_zero, add_zero] at hfree
          exact hfree hs
        have h' : ∃ k' : Nat, k' < fuel ∧ (start + 1) + (k' : Int) ∉ nums := by
          refine ⟨k - 1, by omega, ?_⟩
          have heq : (start + 1) + ((k - 1 : Nat) : Int) = start + (k : Int) := by
            omega
          rw [heq]
          exact hfree
        obtain ⟨k2, heq2, hfree2, hall2⟩ := scanFree_spec nums fuel (start + 1) h'
        refine ⟨k2 + 1, ?_, ?_, ?_⟩
        · show scanFree nums start (fuel + 1) = _
          rw [scanFree, if_pos hs, heq2]
          congr 1
          push_cast
          ring
        · have heq3 : start + ((k2 + 1 : Nat) : Int) = (start + 1) + (k2 : Int) := by
            push_cast
            ring
          rw [heq3]
          exact hfree2
        · intro j hj
          cases j with
          | zero => simpa using hs
          | succ j' =>
            have heq4 : start + ((j' + 1 : Nat) : Int) = (start + 1) + (j' : Int) := by
              push_cast
              ring
            rw [heq4]
            exact hall2 j' (by omega)
      · exact ⟨0, by rw [scanFree, if_neg hs]; simp, by simpa using hs, by omega⟩

theorem exists_free (nums : Finset Int) (start : Int) :
    ∃ k : Nat, k < nums.card + 1 ∧ start + (k : Int) ∉ nums := by
  by_contra h
  push_neg at h
  have hsub : (Finset.range (nums.card + 1)).image (fun k : Nat => start + (k : Int)) ⊆ nums := by
    intro x hx
    simp only [Finset.mem_image, Finset.mem_range] at hx
    obtain ⟨k, hk, rfl⟩ := hx
    exact h k hk
  have hinj : Function.Injective (fun k : Nat => start + (k : Int)) := by
    intro a b hab
    simp only at hab
    omega
  have hcard := Finset.card_le_card hsub
  rw [Finset.card_image_of_injective _ hinj, Finset.card_range] at hcard
  omega

/-- C3 (confirmed): for every band start, used-number set and workspace number,
the allocator returns a number `c` that is free; `c` is the preferred candidate
`start + (num mod 100) - 1` when that is free, and otherwise the first free
number in the ascending scan `start, start+1, …`; and the rename command issued
by the loop names exactly `c`. -/
theorem C3_allocator_order (start : Int) (nums : Finset Int) (num : Int) (wsName : String) :
    ∃ c, allocateNum start nums num = some c ∧ c ∉ nums ∧
      (start + num % 100 - 1 ∉ nums → c = start + num % 100 - 1) ∧
      (start + num % 100 - 1 ∈ nums →
        ∃ k : Nat, c = start + (k : Int) ∧ ∀ j : Nat, j < k → start + (j : Int) ∈ nums) ∧
      renumberStep start nums num wsName = some (renameCommand num wsName c) := by
  by_cases hp : start + num % 100 - 1 ∈ nums
  · obtain ⟨k, heq, hfree, hall⟩ := scanFree_spec nums (nums.card + 1) start (exists_free nums start)
    refine ⟨start + (k : Int), ?_, hfree, fun h => absurd hp h, fun _ => ⟨k, rfl, hall⟩, ?_⟩
    · rw [allocateNum]
      simp only [if_pos hp]
      exact heq
    · rw [renumberStep, allocateNum]
      simp only [if_pos hp]
      rw [heq]
      rfl
  · refine ⟨start + num % 100 - 1, ?_, hp, fun _ => rfl, fun h => absurd h hp, ?_⟩
    · rw [allocateNum]
      simp only [if_neg hp]
    · rw [renumberStep, allocateNum]
      simp only [if_neg hp]
      rfl

/-- Witness for C3 at a concrete input (band start 1, used numbers {1,2},
workspace number 101, preferred candidate 1 ∈ nums, scan picks 3). -/
theorem C3_allocator_order_witness :
    allocateNum 1 {1, 2} 101 = some 3 ∧
    (∃ c, allocateNum 1 {1, 2} 101 = some c ∧ c ∉ ({1, 2} : Finset Int)) := by
  refine ⟨by decide, ?_⟩
  obtain ⟨c, h1, h2, _⟩ := C3_allocator_order 1 {1, 2} 101 "x"
  exact ⟨c, h1, h2⟩

/-- Key of the `Manager.workspaces` dict: the `(num, name)` pair. -/
abbrev WsKey := Int × String

/-- The `(num, name)` pair of the object `i` — the value used by
`Workspace.__eq__` and `__hash__` (junk for never-allocated ids). -/
def keyOf (hp : Nat → Option Workspace) (i : Nat) : WsKey :=
  match hp i with
  | some w => (w.num, w.name)
  | none => (0, "")

/-- `workspace.num` of object `i`. -/
def numOf (hp : Nat → Option Workspace) (i : Nat) : Int :=
  match hp i with
  | some w => w.num
  | none => 0

/-- `workspace.name` of object `i`. -/
def nameOf (hp : Nat → Option Workspace) (i : Nat) : String :=
  match hp i with
  | some w => w.name
  | none => ""

/-- One insertion step of the sort below. -/
def insertByNum (hp : Nat → Option Workspace) (i : Nat) : List Nat → List Nat
  | [] => [i]
  | j :: r => if numOf hp i ≤ numOf hp j then i :: j :: r else j :: insertByNum hp i r

/-- Embeds `Output._sort_workspaces` (`self.workspaces.sort(key=lambda ws:
ws.num)`): sort ascending by `num` (insertion sort; it agrees with Python's
stable sort except possibly on the order of entries with equal nums). -/
def sortByNum (hp : Nat → Option Workspace) : List Nat → List Nat
  | [] => []
  | j :: r => insertByNum hp j (sortByNum hp r)

/-- Embeds `list.remove(workspace)` in `Output.remove_workspace`: drop the
first element whose `(num, name)` equals the given key (Python equality on
`Workspace` compares `(num, name)`); the caller handles the absent case. -/
def eraseFirstKey (hp : Nat → Option Workspace) (k : WsKey) : List Nat → List Nat
  | [] => []
  | j :: r => if keyOf hp j = k then r else j :: eraseFirstKey hp k r

/-- The `Manager` state. -/
structure ManagerState where
  heap : Nat → Option Workspace
  nextId : Nat
  table : WsKey → Option Nat
  tableKeys : List WsKey
  outputNames : List String
  outWs : String → List Nat
  current_output : Option String
  current_workspace : Option Nat
  scratchpad : Option Nat

/-- `Manager.__init__`: empty model. -/
def initState : ManagerState where
  heap := fun _ => none
  nextId := 0
  table := fun _ => none
  tableKeys := []
  outputNames := []
  outWs := fun _ => []
  current_output := none
  current_workspace := none
  scratchpad := none

/-- Apply an in-place mutation to the workspace object `i`. -/
def heapModify (s : ManagerState) (i : Nat) (f : Workspace → Workspace) : ManagerState :=
  { s with heap := Function.update s.heap i ((s.heap i).map f) }

/-- `workspace.has_container(con)` on the object `i`. -/
def hasCon (s : ManagerState) (i : Nat) (cid : Nat) : Bool :=
  match s.heap i with
  | some w => w.has_container cid
  | none => false

/-- Embeds `Manager.get_output`: look the output up by name, create it
empty when absent. -/
def getOutput (s : ManagerState) (name : String) : ManagerState :=
  if name ∈ s.outputNames then s else { s with outputNames := s.outputNames ++ [name] }

/-- Embeds `Manager.get_workspace`: look the `(num, name)` key up in the
`workspaces` dict; allocate and insert a fresh `Workspace` when absent. -/
def getWorkspace (s : ManagerState) (k : WsKey) : ManagerState × Nat :=
  match s.table k with
  | some i => (s, i)
  | none =>
    ({ s with
        heap := Function.update s.heap s.nextId (some ⟨k.1, k.2, []⟩)
        nextId := s.nextId + 1
        table := Function.update s.table k (some s.nextId)
        tableKeys := s.tableKeys ++ [k] }, s.nextId)

/-- `self.workspaces.pop(key, None)`. -/
def tablePop (s : ManagerState) (k : WsKey) : ManagerState :=
  { s with table := Function.update s.table k none, tableKeys := s.tableKeys.erase k }

/-- `self.workspaces[key] = workspace` (dict assignment keeps the position
of an existing key, else appends). -/
def tableInsert (s : ManagerState) (k : WsKey) (i : Nat) : ManagerState :=
  { s with
      table := Function.update s.table k (some i)
      tableKeys := if k ∈ s.tableKeys then s.tableKeys else s.tableKeys ++ [k] }

/-- `self.workspaces.values()` in dict order. -/
def tableValues (s : ManagerState) : List Nat :=
  s.tableKeys.filterMap s.table

/-- Embeds `Output.add_workspace`: append, then `_sort_workspaces`. -/
def addWorkspace (s : ManagerState) (outName : String) (i : Nat) : ManagerState :=
  { s with outWs := Function.update s.outWs outName (sortByNum s.heap (s.outWs outName ++ [i])) }

/-! ### Event handlers (`Manager.on_workspace_*`, `Manager.on_window_*`) -/

/-- Embeds `Manager.on_workspace_init`: get-or-create the workspace and the
output, then `output.add_workspace(workspace)`. -/
def onWorkspaceInit (s : ManagerState) (num : Int) (name : String) (outName : String) :
    ManagerState :=
  let p := getWorkspace s (num, name)
  let s2 := getOutput p.1 outName
  addWorkspace s2 outName p.2

/-- Embeds `Manager.on_workspace_focus`; `oldScratch` says whether the
previously focused workspace was `__i3_scratch`, and `oldNodes` lists the
con ids of its walked subtree in `walk_nodes` order; `none` models the
`AttributeError` on `self.scratchpad.clear()` with a null scratchpad. -/
def onWorkspaceFocus (s : ManagerState) (num : Int) (name : String) (outName : String)
    (oldScratch : Bool) (oldNodes : List Nat) : Option ManagerState :=
  let s1 := { getOutput s outName with current_output := some outName }
  let p := getWorkspace s1 (num, name)
  let s2 := { p.1 with current_workspace := some p.2 }
  if oldScratch then
    match s2.scratchpad with
    | none => none
    | some sp =>
      let s3 := heapModify s2 sp Workspace.clear
      some (oldNodes.foldl (fun st nid =>
        heapModify (heapModify st sp (fun w => w.on_window_focus nid)) p.2
          (fun w => w.on_window_close nid)) s3)
  else some s2

/-- Embeds `Manager.on_workspace_empty`: get-or-create output and
workspace, `output.remove_workspace(workspace)` then pop the table key;
`none` models the `ValueError` from `list.remove` when no list entry
compares equal to the workspace. -/
def onWorkspaceEmpty (s : ManagerState) (num : Int) (name : String) (outName : String) :
    Option ManagerState :=
  let s1 := getOutput s outName
  let p := getWorkspace s1 (num, name)
  let k := keyOf p.1.heap p.2
  let l := p.1.outWs outName
  if l.any (fun j => keyOf p.1.heap j == k) then
    let s3 := { p.1 with outWs := Function.update p.1.outWs outName (eraseFirstKey p.1.heap k l) }
    some (tablePop s3 k)
  else none

/-- Embeds `Manager.on_workspace_rename`: with no current workspace, log
and return; otherwise pop the old `(num, name)` key, mutate the Workspace
object in place, re-insert it under the new key and re-sort the current
output; `none` models the `AttributeError` on a null current output. -/
def onWorkspaceRename (s : ManagerState) (num : Int) (name : String) : Option ManagerState :=
  match s.current_workspace with
  | none => some s
  | some i =>
    let k0 := keyOf s.heap i
    let s1 := tablePop s k0
    let s2 := heapModify s1 i (fun w => { w with num := num, name := name })
    let s3 := tableInsert s2 (num, name) i
    match s3.current_output with
    | none => none
    | some o =>
      some { s3 with outWs := Function.update s3.outWs o (sortByNum s3.heap (s3.outWs o)) }

/-- Embeds `Manager.on_window_focus`: record focus on the current
workspace unless the container is held by the scratchpad or is a
user-placed float. -/
def onWindowFocus (s : ManagerState) (cid : Nat) (userFloating : Bool) : ManagerState :=
  match s.current_workspace with
  | none => s
  | some i =>
    if (match s.scratchpad with
        | some sp => hasCon s sp cid
        | none => false) then s
    else if userFloating then s
    else heapModify s i (fun w => w.on_window_focus cid)

/-- Embeds `Manager.on_window_close`. -/
def onWindowClose (s : ManagerState) (cid : Nat) : ManagerState :=
  match s.current_workspace with
  | none => s
  | some i => heapModify s i (fun w => w.on_window_close cid)

/-- Embeds the floating-container branch of `Manager.on_window_move`:
remove the container's child ids from every tracked workspace's history. -/
def onWindowMoveFloating (s : ManagerState) (childIds : List Nat) : ManagerState :=
  (tableValues s).foldl
    (fun st i => childIds.foldl
      (fun st2 nid => heapModify st2 i (fun w => w.on_window_close nid)) st)
    s

/-- Embeds the deferred reconciliation `Manager._on_window_move`: `found`
is the `(num, name)` key of the workspace node the fresh tree query located
for the moved window (or `none` when the search failed, which only logs);
`cid` is the moved container's id used by the `has_container` scan.  The
result `none` models the `AttributeError` raised by evaluating
`current_workspace != new_workspace` when no tracked workspace claims the
container. -/
def onWindowMoveReconcile (s : ManagerState) (cid : Nat) (found : Option WsKey) :
    Option ManagerState :=
  match found with
  | none => some s
  | some k =>
    let claimant := (tableValues s).find? (fun i => hasCon s i cid)
    let p := getWorkspace s k
    match claimant with
    | none => none
    | some c =>
      if keyOf p.1.heap c = keyOf p.1.heap p.2 then some p.1
      else
        some (heapModify (heapModify p.1 c (fun w => w.on_window_close cid)) p.2
          (fun w => w.on_window_focus cid))

/-- A window-manager event, carrying the payload fields the handlers
read. -/
inductive Ev where
  | wsInit (num : Int) (name : String) (outName : String)
  | wsFocus (num : Int) (name : String) (outName : String) (oldScratch : Bool)
      (oldNodes : List Nat)
  | wsEmpty (num : Int) (name : String) (outName : String)
  | wsRename (num : Int) (name : String)
  | winFocus (cid : Nat) (userFloating : Bool)
  | winClose (cid : Nat)
  | winMoveFloating (childIds : List Nat)
  | winMoveReconcile (cid : Nat) (found : Option WsKey)

/-- Apply one event handler; `none` models an uncaught exception. -/
def applyEv (s : ManagerState) : Ev → Option ManagerState
  | .wsInit num name outName => some (onWorkspaceInit s num name outName)
  | .wsFocus num name outName oldScratch oldNodes =>
      onWorkspaceFocus s num name outName oldScratch oldNodes
  | .wsEmpty num name outName => onWorkspaceEmpty s num name outName
  | .wsRename num name => onWorkspaceRename s num name
  | .winFocus cid uf => some (onWindowFocus s cid uf)
  | .winClose cid => some (onWindowClose s cid)
  | .winMoveFloating ids => some (onWindowMoveFloating s ids)
  | .winMoveReconcile cid found => onWindowMoveReconcile s cid found

/-- Legality side conditions on event payloads relative to the current
model (spec-side assumptions, not embedded code): `workspace-init` must be
fresh, `workspace-focus` and window-move reconciliation must reference
tracked keys, and a rename must act on a tracked current workspace with a
non-colliding new key. -/
def legalEv (s : ManagerState) : Ev → Bool
  | .wsInit num name _ => (s.table (num, name)).isNone
  | .wsFocus num name _ _ _ => (s.table (num, name)).isSome
  | .wsRename num name =>
    match s.current_workspace with
    | none => true
    | some i =>
      s.table (keyOf s.heap i) == some i &&
        ((s.table (num, name)).isNone || (num, name) == keyOf s.heap i)
  | .winMoveReconcile _ found =>
    match found with
    | none => true
    | some k => (s.table k).isSome
  | _ => true

/-- Run a sequence of events, requiring each to be legal. -/
def runLegal (s : ManagerState) : List Ev → Option ManagerState
  | [] => some s
  | e :: es =>
    if legalEv s e then (applyEv s e).bind (fun s2 => runLegal s2 es)
    else none

/-! ### Commands (`last-window`, `workspace-left`, `workspace-right`,
`output-workspace`) -/

/-- Result of `Manager.last_window`: the focus command, or one of the two
logged warnings (no current workspace / no history), which issue nothing. -/
inductive LWRes where
  | cmd (c : String)
  | warnNoWorkspace
  | warnNoHistory
deriving DecidableEq

/-- Embeds `Manager.last_window`. -/
def last_window (s : ManagerState) : LWRes :=
  match s.current_workspace with
  | none => .warnNoWorkspace
  | some i =>
    match s.heap i with
    | none => .warnNoHistory
    | some w =>
      if w.focus_order.length < 2 then .warnNoHistory
      else .cmd ("[con_id=" ++ toString (w.focus_order.getD (w.focus_order.length - 2) 0) ++ "] focus")

/-- Embeds `list.index(workspace)` (first index comparing equal by
`(num, name)`); `none` models the `ValueError`. -/
def pyIndexOf (hp : Nat → Option Workspace) (k : WsKey) : List Nat → Option Nat
  | [] => none
  | j :: r => if keyOf hp j = k then some 0 else (pyIndexOf hp k r).map (· + 1)

/-- Embeds `Manager.workspace_left`; `none` models an uncaught exception
(`AttributeError`/`ValueError` when a current pointer is null or the current
workspace is not in the output's list); on success the state is unchanged
and the single issued `workspace <name>` command is returned. -/
def workspace_left (s : ManagerState) : Option (ManagerState × String) :=
  match s.current_output with
  | none => none
  | some o =>
    match s.current_workspace with
    | none => none
    | some cw =>
      let l := s.outWs o
      match pyIndexOf s.heap (keyOf s.heap cw) l with
      | none => none
      | some idx =>
        let idx2 := if idx = 0 then l.length - 1 else idx - 1
        some (s, "workspace " ++ nameOf s.heap (l.getD idx2 0))

/-- Embeds `Manager.workspace_right` (same conventions as
`workspace_left`). -/
def workspace_right (s : ManagerState) : Option (ManagerState × String) :=
  match s.current_output with
  | none => none
  | some o =>
    match s.current_workspace with
    | none => none
    | some cw =>
      let l := s.outWs o
      match pyIndexOf s.heap (keyOf s.heap cw) l with
      | none => none
      | some idx =>
        let idx2 := if l.length - 1 ≤ idx then 0 else idx + 1
        some (s, "workspace " ++ nameOf s.heap (l.getD idx2 0))

/-- Result of `Manager.output_workspace`: one of the two error
notifications, or the issued switch command. -/
inductive OWRes where
  | errArgCount
  | errNotInt
  | cmd (c : String)
deriving DecidableEq

/-- Python `str.isdigit` restricted to ASCII input: nonempty, all digits. -/
def pyIsDigit (a : String) : Bool :=
  a != "" && a.toList.all (fun c => c.isDigit)

/-- Embeds the generator scan `next((w for w in current_output.workspaces if
(w.num % 10) == (index + 1) and w != current_workspace), None)`; the outer
`none` models the `AttributeError` raised when `w != None` is evaluated. -/
def findOWScan (s : ManagerState) (idx : Int) : List Nat → Option (Option Nat)
  | [] => some none
  | j :: r =>
    if numOf s.heap j % 10 = idx + 1 then
      match s.current_workspace with
      | none => none
      | some cw =>
        if keyOf s.heap j ≠ keyOf s.heap cw then some (some j) else findOWScan s idx r
    else findOWScan s idx r

/-- Embeds `Manager.output_workspace`; `none` models an uncaught
exception. -/
def output_workspace (s : ManagerState) (args : List String) : Option OWRes :=
  if args.length ≠ 1 then some .errArgCount
  else if ¬ pyIsDigit (args.getD 0 "") then some .errNotInt
  else
    let idx : Int := ((args.getD 0 "").toNat?.getD 0 : Nat)
    match s.current_output with
    | none => none
    | some o =>
      let l := s.outWs o
      match findOWScan s idx l with
      | none => none
      | some (some j) => some (.cmd ("workspace " ++ nameOf s.heap j))
      | some none =>
        let idx2 : Int :=
          if idx < 0 then 0
          else if (l.length : Int) ≤ idx then (l.length : Int) - 1 else idx
        if idx2 < 0 ∨ (l.length : Int) ≤ idx2 then none
        else some (.cmd ("workspace " ++ nameOf s.heap (l.getD idx2.toNat 0)))

/-! ### Command dispatcher (`ManagerProtocol.process_input`) -/

/-- The whitespace set of Python `str.split()` restricted to the ASCII
range: `\t`, `\n`, `\v` (0x0b), `\f` (0x0c), `\r`, the separators
0x1c–0x1f, and the space. -/
def pyIsSpace (c : Char) : Bool :=
  (9 ≤ c.toNat && c.toNat ≤ 13) || (28 ≤ c.toNat && c.toNat ≤ 31) || c.toNat == 32

/-- Worker for `pySplit`: `cur` is the reversed current token. -/
def pySplitChars : List Char → List Char → List String
  | cur, [] => if cur = [] then [] else [String.mk cur.reverse]
  | cur, c :: rest =>
    if pyIsSpace c then
      if cur = [] then pySplitChars [] rest
      else String.mk cur.reverse :: pySplitChars [] rest
    else pySplitChars (c :: cur) rest

/-- Python `str.split()` with no argument: split on runs of Python
whitespace (`pyIsSpace` on the ASCII scope), dropping empty tokens. -/
def pySplit (line : String) : List String :=
  pySplitChars [] line.toList

/-- A recognized command, dispatched as an independent task. -/
inductive Dispatch where
  | lastWindowCmd
  | workspaceLeftCmd
  | workspaceRightCmd
  | outputWorkspaceCmd (args : List String)
  | workspaceTreeCmd
  | newOutputWorkspaceCmd
deriving DecidableEq

/-- Outcome of one input line: dispatched, or logged as unknown (nothing is
sent back to the client in either case). -/
inductive LineOutcome where
  | dispatched (d : Dispatch)
  | unknown (cmd : String)
deriving DecidableEq

/-- Embeds the per-line body of `ManagerProtocol.process_input`:
`command, *args = command.split()` then the dispatch chain; `none` models
the `ValueError` raised by the unpacking when the line has no tokens. -/
def processLine (line : String) : Option LineOutcome :=
  match pySplit line with
  | [] => none
  | c :: args =>
    some (if c = "last-window" then .dispatched .lastWindowCmd
      else if c = "workspace-left" then .dispatched .workspaceLeftCmd
      else if c = "workspace-right" then .dispatched .workspaceRightCmd
      else if c = "output-workspace" then .dispatched (.outputWorkspaceCmd args)
      else if c = "workspace-tree" then .dispatched .workspaceTreeCmd
      else if c = "new-output-workspace" then .dispatched .newOutputWorkspaceCmd
      else .unknown c)

/-- The single-character line boundaries of Python `str.splitlines`
restricted to the ASCII range: `\n`, `\v` (0x0b), `\f` (0x0c), `\r`, and
the separators 0x1c–0x1e (`\r\n` is handled as a pair by the worker). -/
def pyIsLineBreak (c : Char) : Bool :=
  (10 ≤ c.toNat && c.toNat ≤ 13) || (28 ≤ c.toNat && c.toNat ≤ 30)

/-- Worker for `pySplitLines`: a `\r\n` pair is one boundary, every other
line-break character stands alone. -/
def pySplitLinesChars : List Char → List Char → List String
  | cur, [] => if cur = [] then [] else [String.mk cur.reverse]
  | cur, '\r' :: '\n' :: rest => String.mk cur.reverse :: pySplitLinesChars [] rest
  | cur, c :: rest =>
    if pyIsLineBreak c then String.mk cur.reverse :: pySplitLinesChars [] rest
    else pySplitLinesChars (c :: cur) rest

/-- Python `str.splitlines` on the ASCII buffers the protocol hands to
`process_input` (boundaries `pyIsLineBreak`, with `\r\n` as a pair). -/
def pySplitLines (buf : String) : List String :=
  pySplitLinesChars [] buf.toList

/-- Embeds `ManagerProtocol.process_input` over a whole buffer: the lines
are processed in order; an exception aborts processing. -/
def processInput (buf : String) : Option (List LineOutcome) :=
  (pySplitLines buf).foldl
    (fun acc line => acc.bind (fun rs => (processLine line).map (fun r => rs ++ [r])))
    (some [])

/-! ### Concrete example states (used by witnesses) -/

/-- Heap of the example state: three workspaces numbered 1, 2, 3 at ids
0, 1, 2; workspace 0 has focus history [10, 11]. -/
def exHeap : Nat → Option Workspace := fun i =>
  if i = 0 then some ⟨1, "1", [10, 11]⟩
  else if i = 1 then some ⟨2, "2", [20]⟩
  else if i = 2 then some ⟨3, "3", []⟩
  else none

/-- Example state: one output "out" holding workspaces [1, 2, 3] (ids
0, 1, 2), with current workspace `cur`. -/
def exState (cur : Option Nat) : ManagerState where
  heap := exHeap
  nextId := 3
  table := fun k =>
    if k = ((1 : Int), "1") then some 0
    else if k = ((2 : Int), "2") then some 1
    else if k = ((3 : Int), "3") then some 2
    else none
  tableKeys := [(1, "1"), (2, "2"), (3, "3")]
  outputNames := ["out"]
  outWs := fun n => if n = "out" then [0, 1, 2] else []
  current_output := some "out"
  current_workspace := cur
  scratchpad := none

/-! ### Lemmas on the command functions -/

theorem pyIndexOf_eq_indexOf {hp : Nat → Option Workspace} {l : List Nat} {cw : Nat}
    (hmem : cw ∈ l) (hkeys : (l.map (keyOf hp)).Nodup) :
    pyIndexOf hp (keyOf hp cw) l = some (l.indexOf cw) := by
  induction l with
  | nil => simp at hmem
  | cons a t ih =>
    rw [List.map_cons, List.nodup_cons] at hkeys
    by_cases hac : a = cw
    · subst hac
      rw [pyIndexOf, if_pos rfl, List.indexOf_cons_self]
    · have hmem' : cw ∈ t := by
        cases hmem with
        | head => exact absurd rfl hac
        | tail _ h => exact h
      have hkey_ne : keyOf hp a ≠ keyOf hp cw := fun he =>
        hkeys.1 (he ▸ List.mem_map_of_mem (keyOf hp) hmem')
      rw [pyIndexOf, if_neg hkey_ne, ih hmem' hkeys.2,
        List.indexOf_cons_ne t (fun h => hac h)]
      rfl

theorem pyIndexOf_lt_length {hp : Nat → Option Workspace} {k : WsKey} :
    ∀ {l : List Nat} {idx : Nat}, pyIndexOf hp k l = some idx → idx < l.length
  | [], _, h => by simp [pyIndexOf] at h
  | j :: r, idx, h => by
      rw [pyIndexOf] at h
      by_cases hj : keyOf hp j = k
      · rw [if_pos hj] at h
        cases h
        simp
      · rw [if_neg hj] at h
        cases hr : pyIndexOf hp k r with
        | none => rw [hr] at h; simp at h
        | some m =>
          rw [hr] at h
          simp only [Option.map_some', Option.some.injEq] at h
          have := pyIndexOf_lt_length (l := r) hr
          simp only [List.length_cons]
          omega

theorem workspace_left_eq {s : ManagerState} {o : String} {cw : Nat} {idx : Nat}
    (ho : s.current_output = some o) (hcw : s.current_workspace = some cw)
    (hidx : pyIndexOf s.heap (keyOf s.heap cw) (s.outWs o) = some idx) :
    workspace_left s = some (s, "workspace " ++
      nameOf s.heap ((s.outWs o).getD
        (if idx = 0 then (s.outWs o).length - 1 else idx - 1) 0)) := by
  rw [workspace_left, ho, hcw]
  simp only [hidx]

theorem workspace_right_eq {s : ManagerState} {o : String} {cw : Nat} {idx : Nat}
    (ho : s.current_output = some o) (hcw : s.current_workspace = some cw)
    (hidx : pyIndexOf s.heap (keyOf s.heap cw) (s.outWs o) = some idx) :
    workspace_right s = some (s, "workspace " ++
      nameOf s.heap ((s.outWs o).getD
        (if (s.outWs o).length - 1 ≤ idx then 0 else idx + 1) 0)) := by
  rw [workspace_right, ho, hcw]
  simp only [hidx]

theorem cyclic_pred_eq {i n : Nat} (h : i < n) :
    (if i = 0 then n - 1 else i - 1) = (i + n - 1) % n := by
  by_cases h0 : i = 0
  · subst h0
    simp [Nat.mod_eq_of_lt (by omega : n - 1 < n)]
  · have he : i + n - 1 = (i - 1) + n := by omega
    rw [if_neg h0, he, Nat.add_mod_right, Nat.mod_eq_of_lt (by omega)]

theorem cyclic_succ_eq {i n : Nat} (h : i < n) :
    (if n - 1 ≤ i then 0 else i + 1) = (i + 1) % n := by
  by_cases hl : n - 1 ≤ i
  · have : i + 1 = n := by omega
    rw [if_pos hl, this, Nat.mod_self]
  · rw [if_neg hl, Nat.mod_eq_of_lt (by omega)]

/-- Example state with a null current output and workspace. -/
def exStateNoOut : ManagerState :=
  { exState none with current_output := none }

/-- C7 (confirmed): `last_window` with a tracked current workspace whose
history has at least two entries issues a focus command for the
second-to-tail entry; with no current workspace, or fewer than two entries,
it issues no window-manager command and emits a warning. -/
theorem C7_last_window (s : ManagerState) :
    (∀ i w, s.current_workspace = some i → s.heap i = some w →
      2 ≤ w.focus_order.length →
      last_window s = .cmd ("[con_id=" ++
        toString (w.focus_order.getD (w.focus_order.length - 2) 0) ++ "] focus")) ∧
    (s.current_workspace = none → last_window s = .warnNoWorkspace) ∧
    (∀ i w, s.current_workspace = some i → s.heap i = some w →
      w.focus_order.length < 2 → last_window s = .warnNoHistory) := by
  refine ⟨?_, ?_, ?_⟩
  · intro i w hi hw hlen
    simp only [last_window, hi, hw]
    rw [if_neg (by omega)]
  · intro h
    simp only [last_window, h]
  · intro i w hi hw hlen
    simp only [last_window, hi, hw]
    rw [if_pos hlen]

/-- Witness for C7: on history [10, 11] the command targets 10; with no
current workspace or an empty history only a warning is emitted. -/
theorem C7_last_window_witness :
    last_window (exState (some 0)) = .cmd "[con_id=10] focus" ∧
    last_window (exState none) = .warnNoWorkspace ∧
    last_window (exState (some 2)) = .warnNoHistory :=
  ⟨(C7_last_window _).1 0 ⟨1, "1", [10, 11]⟩ rfl rfl (by decide),
   (C7_last_window _).2.1 rfl,
   (C7_last_window _).2.2 2 ⟨3, "3", []⟩ rfl rfl (by decide)⟩

/-- C8 (confirmed): whenever the current output's list contains the current
workspace and the entries have pairwise distinct `(num, name)` keys,
`workspace_left` issues a switch command to the cyclic predecessor by list
position and `workspace_right` to the cyclic successor, leaving the state
unchanged; on the list [1, 2, 3] this gives left/right of 2 as 1/3 and the
wrap-arounds at the ends. -/
theorem C8_workspace_cycle (s : ManagerState) (o : String) (cw : Nat)
    (ho : s.current_output = some o) (hcw : s.current_workspace = some cw)
    (hmem : cw ∈ s.outWs o) (hkeys : ((s.outWs o).map (keyOf s.heap)).Nodup) :
    workspace_left s = some (s, "workspace " ++ nameOf s.heap ((s.outWs o).getD
      (((s.outWs o).indexOf cw + (s.outWs o).length - 1) % (s.outWs o).length) 0)) ∧
    workspace_right s = some (s, "workspace " ++ nameOf s.heap ((s.outWs o).getD
      (((s.outWs o).indexOf cw + 1) % (s.outWs o).length) 0)) := by
  have hidx := pyIndexOf_eq_indexOf hmem hkeys
  have hlt : (s.outWs o).indexOf cw < (s.outWs o).length :=
    List.indexOf_lt_length.mpr hmem
  constructor
  · rw [workspace_left_eq ho hcw hidx, cyclic_pred_eq hlt]
  · rw [workspace_right_eq ho hcw hidx, cyclic_succ_eq hlt]

/-- Witness for C8 on the output [1, 2, 3]: at 2, left targets 1 and right
targets 3; at 1, left wraps to 3; at 3, right wraps to 1. -/
theorem C8_workspace_cycle_witness :
    workspace_left (exState (some 1)) = some (exState (some 1), "workspace 1") ∧
    workspace_right (exState (some 1)) = some (exState (some 1), "workspace 3") ∧
    workspace_left (exState (some 0)) = some (exState (some 0), "workspace 3") ∧
    workspace_right (exState (some 2)) = some (exState (some 2), "workspace 1") :=
  ⟨(C8_workspace_cycle (exState (some 1)) "out" 1 rfl rfl (by decide) (by decide)).1,
   (C8_workspace_cycle (exState (some 1)) "out" 1 rfl rfl (by decide) (by decide)).2,
   (C8_workspace_cycle (exState (some 0)) "out" 0 rfl rfl (by decide) (by decide)).1,
   (C8_workspace_cycle (exState (some 2)) "out" 2 rfl rfl (by decide) (by decide)).2⟩

/-- C10 (confirmed): `workspace_left`/`workspace_right` perform no guard on
the current pointers: under the precondition that both pointers are set and
the current workspace occurs in the current output's list they succeed,
issuing exactly one switch command and leaving the state unchanged; with a
null current output, a null current workspace, or a current workspace whose
key matches no list entry, the position lookup fails (an uncaught
exception, modelled `none`) — unlike `last_window`, which detects the
missing current workspace and merely warns. -/
theorem C10_unguarded_navigation (s : ManagerState) :
    (∀ o cw, s.current_output = some o → s.current_workspace = some cw →
      cw ∈ s.outWs o → ((s.outWs o).map (keyOf s.heap)).Nodup →
      (∃ c, workspace_left s = some (s, c)) ∧ (∃ c, workspace_right s = some (s, c))) ∧
    (s.current_output = none → workspace_left s = none ∧ workspace_right s = none) ∧
    (s.current_workspace = none →
      workspace_left s = none ∧ workspace_right s = none ∧
      last_window s = .warnNoWorkspace) ∧
    (∀ o cw, s.current_output = some o → s.current_workspace = some cw →
      pyIndexOf s.heap (keyOf s.heap cw) (s.outWs o) = none →
      workspace_left s = none ∧ workspace_right s = none) := by
  refine ⟨?_, ?_, ?_, ?_⟩
  · intro o cw ho hcw hmem hkeys
    have hidx := pyIndexOf_eq_indexOf hmem hkeys
    exact ⟨⟨_, workspace_left_eq ho hcw hidx⟩, ⟨_, workspace_right_eq ho hcw hidx⟩⟩
  · intro h
    constructor <;> simp [workspace_left, workspace_right, h]
  · intro h
    refine ⟨?_, ?_, by simp only [last_window, h]⟩ <;>
      · simp only [workspace_left, workspace_right, h]
        cases s.current_output <;> simp
  · intro o cw ho hcw hidx
    constructor <;> simp [workspace_left, workspace_right, ho, hcw, hidx]

/-- Witness for C10 at concrete states: success with both pointers set,
failure with a null output, a null workspace (where `last_window` still
warns), and an untracked current workspace. -/
theorem C10_unguarded_navigation_witness :
    (∃ c, workspace_left (exState (some 1)) = some (exState (some 1), c)) ∧
    workspace_left exStateNoOut = none ∧
    (workspace_left (exState none) = none ∧
      last_window (exState none) = .warnNoWorkspace) ∧
    workspace_left (exState (some 5)) = none :=
  ⟨((C10_unguarded_navigation _).1 "out" 1 rfl rfl (by decide) (by decide)).1,
   ((C10_unguarded_navigation _).2.1 rfl).1,
   ⟨((C10_unguarded_navigation _).2.2.1 rfl).1,
    ((C10_unguarded_navigation _).2.2.1 rfl).2.2⟩,
   ((C10_unguarded_navigation _).2.2.2 "out" 5 rfl rfl (by decide)).1⟩

/-- C9 (amended): every line with at least one token is processed without
raising — a recognized command is dispatched, an unknown command is logged
and otherwise ignored with nothing sent back — and an `output-workspace`
invocation with an argument count other than 1, or a non-digit argument,
produces an error notification and issues no window-manager command; a
line with no tokens, however, raises `ValueError` in the unpacking
`command, *args = command.split()`. -/
theorem C9_dispatch_safety :
    (∀ line, pySplit line ≠ [] → (processLine line).isSome) ∧
    (∀ line c args, pySplit line = c :: args →
      c ∉ (["last-window", "workspace-left", "workspace-right", "output-workspace",
            "workspace-tree", "new-output-workspace"] : List String) →
      processLine line = some (.unknown c)) ∧
    (∀ (s : ManagerState) (args : List String), args.length ≠ 1 →
      output_workspace s args = some .errArgCount) ∧
    (∀ (s : ManagerState) (a : String), pyIsDigit a = false →
      output_workspace s [a] = some .errNotInt) := by
  refine ⟨?_, ?_, ?_, ?_⟩
  · intro line h
    rw [processLine]
    cases hs : pySplit line with
    | nil => exact absurd hs h
    | cons c args => simp
  · intro line c args hs hc
    simp only [List.mem_cons, not_or] at hc
    obtain ⟨h1, h2, h3, h4, h5, h6, _⟩ := hc
    rw [processLine, hs]
    simp [h1, h2, h3, h4, h5, h6]
  · intro s args h
    rw [output_workspace, if_pos h]
  · intro s a h
    rw [output_workspace, if_neg (by simp)]
    have hg : ([a] : List String).getD 0 "" = a := rfl
    rw [hg, if_pos (by simp [h])]

/-- Witness for C9 at concrete inputs. -/
theorem C9_dispatch_safety_witness :
    (processLine "bogus-command arg").isSome ∧
    processLine "bogus-command arg" = some (.unknown "bogus-command") ∧
    output_workspace (exState none) [] = some .errArgCount ∧
    output_workspace (exState none) ["12x"] = some .errNotInt :=
  ⟨(C9_dispatch_safety).1 "bogus-command arg" (by decide),
   (C9_dispatch_safety).2.1 "bogus-command arg" "bogus-command" ["arg"] (by decide) (by decide),
   (C9_dispatch_safety).2.2.1 (exState none) [] (by decide),
   (C9_dispatch_safety).2.2.2 (exState none) "12x" (by decide)⟩

/-- Counterexample to C9 as stated: a line with no tokens is not processed
without raising — the tokenizing unpack raises `ValueError` (modelled
`none`): for the empty line, for a line of Python whitespace such as the
vertical tab `\x0b`, and for newline-terminated buffers holding them. -/
theorem C9_counterexample :
    processLine "" = none ∧ processInput "\n" = none ∧
    processLine "\x0b" = none ∧ processInput "\x0b\n" = none := by
  refine ⟨?_, ?_, ?_, ?_⟩ <;> decide

/-! ### Membership counting and sort lemmas -/

/-- Number of tracked outputs whose workspace list contains the object
`i` (the membership count behind "exactly one Output's list"). -/
def memCount (s : ManagerState) (i : Nat) : Nat :=
  (s.outputNames.filter (fun n => decide (i ∈ s.outWs n))).length

theorem insertByNum_perm (hp : Nat → Option Workspace) (i : Nat) :
    ∀ l : List Nat, List.Perm (insertByNum hp i l) (i :: l)
  | [] => List.Perm.refl _
  | j :: r => by
      rw [insertByNum]
      split
      · exact List.Perm.refl _
      · exact ((insertByNum_perm hp i r).cons j).trans (List.Perm.swap i j r)

theorem sortByNum_perm (hp : Nat → Option Workspace) :
    ∀ l : List Nat, List.Perm (sortByNum hp l) l
  | [] => List.Perm.refl _
  | j :: r => (insertByNum_perm hp j (sortByNum hp r)).trans ((sortByNum_perm hp r).cons j)

theorem mem_sortByNum {hp : Nat → Option Workspace} {l : List Nat} {i : Nat} :
    i ∈ sortByNum hp l ↔ i ∈ l :=
  (sortByNum_perm hp l).mem_iff

theorem insertByNum_sorted (hp : Nat → Option Workspace) (i : Nat) :
    ∀ {l : List Nat}, l.Pairwise (fun a b => numOf hp a ≤ numOf hp b) →
      (insertByNum hp i l).Pairwise (fun a b => numOf hp a ≤ numOf hp b)
  | [], _ => by simp [insertByNum]
  | j :: r, hl => by
      rw [List.pairwise_cons] at hl
      rw [insertByNum]
      by_cases hle : numOf hp i ≤ numOf hp j
      · rw [if_pos hle]
        refine List.pairwise_cons.mpr ⟨?_, List.pairwise_cons.mpr hl⟩
        intro b hb
        rcases List.mem_cons.mp hb with hb | hb
        · exact hb ▸ hle
        · exact le_trans hle (hl.1 b hb)
      · rw [if_neg hle]
        refine List.pairwise_cons.mpr ⟨?_, insertByNum_sorted hp i hl.2⟩
        intro b hb
        rcases List.mem_cons.mp ((insertByNum_perm hp i r).mem_iff.mp hb) with hb | hb
        · exact hb ▸ le_of_not_le hle
        · exact hl.1 b hb

theorem sortByNum_sorted (hp : Nat → Option Workspace) :
    ∀ l : List Nat, (sortByNum hp l).Pairwise (fun a b => numOf hp a ≤ numOf hp b)
  | [] => List.Pairwise.nil
  | j :: r => insertByNum_sorted hp j (sortByNum_sorted hp r)

/-! ### C5 and C6 (workspace-rename) -/

/-- C5 (confirmed): handling a rename to a distinct key while the current
workspace is tracked leaves the same Workspace object (mutated in place to
the new num and name, at the same identity) mapped under the new key, the
old key absent from the table, the object still a member of its single
owning output, and that output's list sorted by num (a permutation of the
previous list). -/
theorem C5_rename_rekey (s : ManagerState) (num : Int) (name : String) (i : Nat)
    (o : String) (w : Workspace)
    (hcw : s.current_workspace = some i) (ho : s.current_output = some o)
    (hw : s.heap i = some w)
    (hmem : i ∈ s.outWs o) (hcount : memCount s i = 1)
    (hne : ((num, name) : WsKey) ≠ (w.num, w.name)) :
    ∃ s', onWorkspaceRename s num name = some s' ∧
      s'.table (num, name) = some i ∧
      s'.table (w.num, w.name) = none ∧
      s'.heap i = some { w with num := num, name := name } ∧
      i ∈ s'.outWs o ∧
      memCount s' i = 1 ∧
      (s'.outWs o).Pairwise (fun a b => numOf s'.heap a ≤ numOf s'.heap b) ∧
      List.Perm (s'.outWs o) (s.outWs o) := by
  have hkey : keyOf s.heap i = (w.num, w.name) := by simp [keyOf, hw]
  simp only [onWorkspaceRename, hcw, hkey, tablePop, heapModify, tableInsert, ho]
  refine ⟨_, rfl, ?_, ?_, ?_, ?_, ?_, ?_, ?_⟩
  · dsimp only
    simp [Function.update_same]
  · dsimp only
    rw [Function.update_noteq (Ne.symm hne), Function.update_same]
  · dsimp only
    simp [Function.update_same, hw]
  · dsimp only
    rw [Function.update_same]
    exact mem_sortByNum.mpr hmem
  · rw [memCount] at hcount ⊢
    dsimp only
    rw [← hcount]
    apply congrArg
    apply List.filter_congr
    intro n _
    by_cases hno : n = o
    · subst hno
      simp only [Function.update_same, decide_eq_decide]
      exact mem_sortByNum
    · simp [Function.update_noteq hno]
  · dsimp only
    rw [Function.update_same]
    exact sortByNum_sorted _ _
  · dsimp only
    rw [Function.update_same]
    exact sortByNum_perm _ _

/-- Witness for C5 at a concrete state: renaming workspace 2 (id 1) to
(5, "five") on the three-workspace output. -/
theorem C5_rename_rekey_witness :
    ∃ s', onWorkspaceRename (exState (some 1)) 5 "five" = some s' ∧
      s'.table (5, "five") = some 1 ∧
      s'.table (2, "2") = none ∧
      s'.heap 1 = some { Workspace.mk 2 "2" [20] with num := 5, name := "five" } ∧
      1 ∈ s'.outWs "out" ∧
      memCount s' 1 = 1 ∧
      (s'.outWs "out").Pairwise (fun a b => numOf s'.heap a ≤ numOf s'.heap b) ∧
      List.Perm (s'.outWs "out") ((exState (some 1)).outWs "out") :=
  C5_rename_rekey (exState (some 1)) 5 "five" 1 "out" ⟨2, "2", [20]⟩ rfl rfl rfl
    (by decide) (by decide) (by decide)

/-- C6 (confirmed): a workspace-rename event handled while no current
workspace is tracked logs a warning and returns with the model — table,
output lists, focus orders, current pointers — entirely unchanged. -/
theorem C6_rename_no_current (s : ManagerState) (num : Int) (name : String)
    (h : s.current_workspace = none) :
    onWorkspaceRename s num name = some s := by
  simp only [onWorkspaceRename, h]

/-- Witness for C6 at a concrete state. -/
theorem C6_rename_no_current_witness :
    onWorkspaceRename (exState none) 7 "x" = some (exState none) :=
  C6_rename_no_current (exState none) 7 "x" rfl

/-! ### The entity-model invariant behind C4 -/

/-- The entity-model invariant: every tracked workspace except the
scratchpad sits in exactly one output's list, together with the auxiliary
clauses the preservation argument needs (allocation bounds, table/heap key
agreement, list entries tracked, unregistered outputs empty, no duplicate
names or list entries, scratchpad allocated and unlisted). -/
structure Inv (s : ManagerState) : Prop where
  allocBound : ∀ i, s.nextId ≤ i → s.heap i = none
  tableSound : ∀ k i, s.table k = some i →
    ∃ w, s.heap i = some w ∧ ((w.num, w.name) : WsKey) = k
  listedTracked : ∀ n i, i ∈ s.outWs n → ∃ k, s.table k = some i
  outWsDefault : ∀ n, n ∉ s.outputNames → s.outWs n = []
  namesNodup : s.outputNames.Nodup
  listsNodup : ∀ n, (s.outWs n).Nodup
  scratchAllocated : ∀ i, s.scratchpad = some i → (s.heap i).isSome
  scratchUnlisted : ∀ i n, s.scratchpad = some i → i ∉ s.outWs n
  exactlyOne : ∀ k i, s.table k = some i → s.scratchpad ≠ some i → memCount s i = 1

theorem Inv.tracked_lt_nextId {s : ManagerState} {k : WsKey} {i : Nat}
    (h : Inv s) (ht : s.table k = some i) : i < s.nextId := by
  obtain ⟨w, hw, _⟩ := h.tableSound k i ht
  by_contra hle
  rw [h.allocBound i (le_of_not_lt hle)] at hw
  exact Option.noConfusion hw

theorem Inv.listed_lt_nextId {s : ManagerState} {n : String} {i : Nat}
    (h : Inv s) (hmem : i ∈ s.outWs n) : i < s.nextId := by
  obtain ⟨k, hk⟩ := h.listedTracked n i hmem
  exact h.tracked_lt_nextId hk

theorem Inv.table_inj {s : ManagerState} {k1 k2 : WsKey} {i : Nat}
    (h : Inv s) (h1 : s.table k1 = some i) (h2 : s.table k2 = some i) : k1 = k2 := by
  obtain ⟨w1, hw1, hk1⟩ := h.tableSound _ _ h1
  obtain ⟨w2, hw2, hk2⟩ := h.tableSound _ _ h2
  rw [hw1, Option.some.injEq] at hw2
  rw [← hk1, ← hk2, hw2]

theorem memCount_congr (s' s : ManagerState) (i : Nat)
    (hn : s'.outputNames = s.outputNames)
    (hiff : ∀ n, i ∈ s'.outWs n ↔ i ∈ s.outWs n) :
    memCount s' i = memCount s i := by
  rw [memCount, memCount, hn]
  apply congrArg
  apply List.filter_congr
  intro n _
  simp [decide_eq_decide, hiff n]

theorem filter_singleton_length {names : List String} {p : String → Bool} {o : String}
    (hnd : names.Nodup) (ho : o ∈ names) (hp : p o = true)
    (hothers : ∀ n, n ≠ o → p n = false) :
    (names.filter p).length = 1 := by
  induction names with
  | nil => simp at ho
  | cons a t ih =>
    rw [List.nodup_cons] at hnd
    rcases List.mem_cons.mp ho with rfl | hot
    · rw [List.filter_cons_of_pos hp]
      have ht : t.filter p = [] := by
        rw [List.filter_eq_nil_iff]
        intro n hn
        rw [hothers n (fun he => hnd.1 (he ▸ hn))]
        simp
      simp [ht]
    · have ha : p a = false := hothers a (fun he => hnd.1 (he ▸ hot))
      rw [List.filter_cons_of_neg (by simp [ha])]
      exact ih hnd.2 hot

theorem memCount_eq_one {s : ManagerState} {i : Nat} {o : String}
    (hnd : s.outputNames.Nodup) (ho : o ∈ s.outputNames) (hmem : i ∈ s.outWs o)
    (hothers : ∀ n, n ≠ o → i ∉ s.outWs n) :
    memCount s i = 1 := by
  rw [memCount]
  exact filter_singleton_length hnd ho (by simpa using hmem)
    (fun n hne => by simpa using hothers n hne)

/-- A workspace mutation that keeps `num` and `name` (all focus-order
operations do). -/
def KeyPreserving (f : Workspace → Workspace) : Prop :=
  ∀ w, (f w).num = w.num ∧ (f w).name = w.name

theorem keyPreserving_on_window_focus (cid : Nat) :
    KeyPreserving (fun w => w.on_window_focus cid) :=
  fun _ => ⟨rfl, rfl⟩

theorem keyPreserving_on_window_close (cid : Nat) :
    KeyPreserving (fun w => w.on_window_close cid) :=
  fun _ => ⟨rfl, rfl⟩

theorem keyPreserving_clear : KeyPreserving Workspace.clear :=
  fun _ => ⟨rfl, rfl⟩

theorem heapModify_outWs (s : ManagerState) (i : Nat) (f : Workspace → Workspace) :
    (heapModify s i f).outWs = s.outWs := rfl

theorem memCount_heapModify (s : ManagerState) (i j : Nat) (f : Workspace → Workspace) :
    memCount (heapModify s i f) j = memCount s j :=
  memCount_congr _ _ j rfl (fun _ => Iff.rfl)

theorem Inv.heapModify {s : ManagerState} {i : Nat} {f : Workspace → Workspace}
    (h : Inv s) (hf : KeyPreserving f) : Inv (heapModify s i f) := by
  refine ⟨?_, ?_, h.listedTracked, h.outWsDefault, h.namesNodup, h.listsNodup, ?_,
    h.scratchUnlisted, ?_⟩
  · intro j hj
    rw [I3M.heapModify]
    dsimp only
    by_cases hij : j = i
    · subst hij
      rw [Function.update_same, h.allocBound j hj]
      rfl
    · rw [Function.update_noteq hij]
      exact h.allocBound j hj
  · intro k j ht
    obtain ⟨w, hw, hk⟩ := h.tableSound k j ht
    rw [I3M.heapModify]
    dsimp only
    by_cases hij : j = i
    · subst hij
      refine ⟨f w, ?_, ?_⟩
      · rw [Function.update_same, hw]
        rfl
      · rw [(hf w).1, (hf w).2]
        exact hk
    · exact ⟨w, by rw [Function.update_noteq hij]; exact hw, hk⟩
  · intro j hsp
    have := h.scratchAllocated j hsp
    rw [I3M.heapModify]
    dsimp only
    by_cases hij : j = i
    · subst hij
      rw [Function.update_same]
      cases hm : s.heap j with
      | none => rw [hm] at this; exact absurd this (by simp)
      | some w => simp
    · rw [Function.update_noteq hij]
      exact this
  · intro k j ht hsp
    rw [memCount_heapModify]
    exact h.exactlyOne k j ht hsp

theorem inv_foldl {β : Type} (step : ManagerState → β → ManagerState)
    (hstep : ∀ s b, Inv s → Inv (step s b)) :
    ∀ (l : List β) (s : ManagerState), Inv s → Inv (l.foldl step s)
  | [], _, h => h
  | b :: t, s, h => inv_foldl step hstep t _ (hstep s b h)

theorem getOutput_heap (s : ManagerState) (n : String) : (getOutput s n).heap = s.heap := by
  rw [getOutput]
  split <;> rfl

theorem getOutput_table (s : ManagerState) (n : String) : (getOutput s n).table = s.table := by
  rw [getOutput]
  split <;> rfl

theorem getOutput_outWs (s : ManagerState) (n : String) : (getOutput s n).outWs = s.outWs := by
  rw [getOutput]
  split <;> rfl

theorem getOutput_scratchpad (s : ManagerState) (n : String) :
    (getOutput s n).scratchpad = s.scratchpad := by
  rw [getOutput]
  split <;> rfl

theorem getOutput_nextId (s : ManagerState) (n : String) : (getOutput s n).nextId = s.nextId := by
  rw [getOutput]
  split <;> rfl

theorem mem_getOutput_outputNames (s : ManagerState) (n : String) :
    n ∈ (getOutput s n).outputNames := by
  rw [getOutput]
  split
  · assumption
  · simp

theorem getOutput_outputNames_sup {s : ManagerState} {m : String} (n : String)
    (h : m ∈ s.outputNames) : m ∈ (getOutput s n).outputNames := by
  rw [getOutput]
  split
  · exact h
  · simp [h]

theorem memCount_getOutput {s : ManagerState}
    (hdef : ∀ n, n ∉ s.outputNames → s.outWs n = []) (name : String) (i : Nat) :
    memCount (getOutput s name) i = memCount s i := by
  rw [getOutput]
  split
  · rfl
  · rename_i hmem
    rw [memCount, memCount]
    simp only [List.filter_append]
    rw [List.length_append]
    have : List.filter (fun n => decide (i ∈ s.outWs n)) [name] = [] := by
      simp [hdef name hmem]
    simp [this]

theorem Inv.getOutput {s : ManagerState} (h : Inv s) (name : String) :
    Inv (getOutput s name) := by
  rw [I3M.getOutput]
  split
  · exact h
  · rename_i hmem
    refine ⟨h.allocBound, h.tableSound, h.listedTracked, ?_, ?_, h.listsNodup,
      h.scratchAllocated, h.scratchUnlisted, ?_⟩
    · intro n hn
      exact h.outWsDefault n (fun hc => hn (by simp [hc]))
    · simp [List.nodup_append, h.namesNodup, hmem]
    · intro k j ht hsp
      have := h.exactlyOne k j ht hsp
      rw [← this]
      have hre : ({ s with outputNames := s.outputNames ++ [name] } : ManagerState)
          = I3M.getOutput s name := by
        rw [I3M.getOutput, if_neg hmem]
      rw [hre, memCount_getOutput h.outWsDefault]

theorem getWorkspace_found {s : ManagerState} {k : WsKey} {i : Nat}
    (h : s.table k = some i) : getWorkspace s k = (s, i) := by
  simp [getWorkspace, h]

theorem getWorkspace_create {s : ManagerState} {k : WsKey} (h : s.table k = none) :
    getWorkspace s k = ({ s with
        heap := Function.update s.heap s.nextId (some ⟨k.1, k.2, []⟩)
        nextId := s.nextId + 1
        table := Function.update s.table k (some s.nextId)
        tableKeys := s.tableKeys ++ [k] }, s.nextId) := by
  simp [getWorkspace, h]

theorem getOutput_id {s : ManagerState} {o : String} (h : o ∈ s.outputNames) :
    getOutput s o = s := by
  rw [getOutput, if_pos h]

/-- The invariant with the membership clause relaxed at one id `i` (the
state between `get_workspace` creating `i` and `add_workspace` listing
it). -/
structure InvE (s : ManagerState) (i : Nat) : Prop where
  allocBound : ∀ j, s.nextId ≤ j → s.heap j = none
  tableSound : ∀ k j, s.table k = some j →
    ∃ w, s.heap j = some w ∧ ((w.num, w.name) : WsKey) = k
  listedTracked : ∀ n j, j ∈ s.outWs n → ∃ k, s.table k = some j
  outWsDefault : ∀ n, n ∉ s.outputNames → s.outWs n = []
  namesNodup : s.outputNames.Nodup
  listsNodup : ∀ n, (s.outWs n).Nodup
  scratchAllocated : ∀ j, s.scratchpad = some j → (s.heap j).isSome
  scratchUnlisted : ∀ j n, s.scratchpad = some j → j ∉ s.outWs n
  exactlyOneE : ∀ k j, s.table k = some j → s.scratchpad ≠ some j → j ≠ i →
    memCount s j = 1
  tracked : ∃ k, s.table k = some i
  unlisted : ∀ n, i ∉ s.outWs n
  scratchNe : s.scratchpad ≠ some i

theorem invE_create {s : ManagerState} {k : WsKey} (h : Inv s)
    (hfresh : s.table k = none) :
    InvE (getWorkspace s k).1 s.nextId := by
  rw [getWorkspace_create hfresh]
  dsimp only
  refine ⟨?_, ?_, ?_, h.outWsDefault, h.namesNodup, h.listsNodup, ?_, h.scratchUnlisted,
    ?_, ?_, ?_, ?_⟩
  · intro j hj
    dsimp only at hj ⊢
    have hne : j ≠ s.nextId := by omega
    rw [Function.update_noteq hne]
    exact h.allocBound j (by omega)
  · intro k' j ht
    dsimp only at ht ⊢
    by_cases hk : k' = k
    · subst hk
      rw [Function.update_same] at ht
      cases ht
      exact ⟨⟨k'.1, k'.2, []⟩, by rw [Function.update_same], by simp⟩
    · rw [Function.update_noteq hk] at ht
      obtain ⟨w, hw, hkk⟩ := h.tableSound k' j ht
      have hj : j < s.nextId := h.tracked_lt_nextId ht
      have hne : j ≠ s.nextId := by omega
      exact ⟨w, by rw [Function.update_noteq hne]; exact hw, hkk⟩
  · intro n j hmem
    dsimp only at hmem ⊢
    obtain ⟨k', hk'⟩ := h.listedTracked n j hmem
    have hne : k' ≠ k := fun he => by rw [he, hfresh] at hk'; exact Option.noConfusion hk'
    exact ⟨k', by rw [Function.update_noteq hne]; exact hk'⟩
  · intro j hsp
    dsimp only at hsp ⊢
    have hs := h.scratchAllocated j hsp
    have hj : j < s.nextId := by
      by_contra hc
      rw [h.allocBound j (le_of_not_lt hc)] at hs
      exact absurd hs (by simp)
    have hne : j ≠ s.nextId := by omega
    rw [Function.update_noteq hne]
    exact hs
  · intro k' j ht hsp hji
    dsimp only at ht hsp hji ⊢
    have hk : k' ≠ k := by
      intro he
      subst he
      rw [Function.update_same] at ht
      cases ht
      exact hji rfl
    rw [Function.update_noteq hk] at ht
    have hmc : memCount ({ s with
        heap := Function.update s.heap s.nextId (some ⟨k.1, k.2, []⟩)
        nextId := s.nextId + 1
        table := Function.update s.table k (some s.nextId)
        tableKeys := s.tableKeys ++ [k] } : ManagerState) j = memCount s j :=
      memCount_congr _ _ j rfl (fun _ => Iff.rfl)
    rw [hmc]
    exact h.exactlyOne k' j ht hsp
  · refine ⟨k, ?_⟩
    dsimp only
    rw [Function.update_same]
  · intro n hmem
    dsimp only at hmem
    have := h.listed_lt_nextId hmem
    omega
  · intro hsp
    dsimp only at hsp
    have hs := h.scratchAllocated _ hsp
    rw [h.allocBound s.nextId (le_refl _)] at hs
    exact absurd hs (by simp)

theorem invE_getOutput {s : ManagerState} {i : Nat} (h : InvE s i) (name : String) :
    InvE (getOutput s name) i := by
  rw [getOutput]
  split
  · exact h
  · rename_i hmem
    refine ⟨h.allocBound, h.tableSound, h.listedTracked, ?_, ?_, h.listsNodup,
      h.scratchAllocated, h.scratchUnlisted, ?_, h.tracked, h.unlisted, h.scratchNe⟩
    · intro n hn
      exact h.outWsDefault n (fun hc => hn (by simp [hc]))
    · simp [List.nodup_append, h.namesNodup, hmem]
    · intro k j ht hsp hji
      have heq : ({ s with outputNames := s.outputNames ++ [name] } : ManagerState)
          = I3M.getOutput s name := by
        rw [I3M.getOutput, if_neg hmem]
      rw [heq, memCount_getOutput h.outWsDefault]
      exact h.exactlyOneE k j ht hsp hji

theorem inv_addWorkspace {s : ManagerState} {i : Nat} {o : String}
    (h : InvE s i) (ho : o ∈ s.outputNames) : Inv (addWorkspace s o i) := by
  have hmemo : ∀ j n, j ∈ (addWorkspace s o i).outWs n ↔
      (j ∈ s.outWs n ∨ (n = o ∧ j = i)) := by
    intro j n
    rw [addWorkspace]
    dsimp only
    by_cases hn : n = o
    · subst hn
      rw [Function.update_same, mem_sortByNum]
      simp [List.mem_append]
    · rw [Function.update_noteq hn]
      simp [hn]
  refine ⟨h.allocBound, h.tableSound, ?_, ?_, h.namesNodup, ?_, h.scratchAllocated,
    ?_, ?_⟩
  · intro n j hmem
    rcases (hmemo j n).mp hmem with hm | ⟨_, rfl⟩
    · exact h.listedTracked n j hm
    · exact h.tracked
  · intro n hn
    have hno : n ≠ o := fun he => hn (he ▸ ho)
    rw [addWorkspace]
    dsimp only
    rw [Function.update_noteq hno]
    exact h.outWsDefault n hn
  · intro n
    rw [addWorkspace]
    dsimp only
    by_cases hn : n = o
    · subst hn
      rw [Function.update_same, (sortByNum_perm _ _).nodup_iff]
      simp only [List.nodup_append, List.nodup_singleton]
      exact ⟨h.listsNodup n, trivial, by simpa [List.disjoint_singleton] using h.unlisted n⟩
    · rw [Function.update_noteq hn]
      exact h.listsNodup n
  · intro j n hsp
    rw [hmemo j n]
    push_neg
    refine ⟨h.scratchUnlisted j n hsp, fun _ => ?_⟩
    intro he
    subst he
    exact h.scratchNe hsp
  · intro k j ht hsp
    by_cases hji : j = i
    · subst hji
      refine memCount_eq_one h.namesNodup ho ((hmemo j o).mpr (Or.inr ⟨rfl, rfl⟩)) ?_
      intro n hn
      rw [hmemo j n]
      push_neg
      exact ⟨h.unlisted n, fun he => absurd he hn⟩
    · have : memCount (addWorkspace s o i) j = memCount s j := by
        apply memCount_congr
        · rfl
        · intro n
          rw [hmemo j n]
          constructor
          · rintro (hm | ⟨_, rfl⟩)
            · exact hm
            · exact absurd rfl hji
          · exact Or.inl
      rw [this]
      exact h.exactlyOneE k j ht hsp hji

/-- `on_workspace_init` preserves the invariant when the event's key is
fresh. -/
theorem inv_onWorkspaceInit {s : ManagerState} (num : Int) (name : String) (o : String)
    (h : Inv s) (hfresh : s.table (num, name) = none) :
    Inv (onWorkspaceInit s num name o) := by
  rw [onWorkspaceInit]
  have h1 := invE_create h hfresh
  have h2 := invE_getOutput h1 o
  have hi2 : (getWorkspace s (num, name)).2 = s.nextId := by
    rw [getWorkspace_create hfresh]
  rw [hi2]
  exact inv_addWorkspace h2 (mem_getOutput_outputNames _ _)

theorem Inv.withCO {s : ManagerState} (h : Inv s) (co : Option String) :
    Inv { s with current_output := co } :=
  ⟨h.allocBound, h.tableSound, h.listedTracked, h.outWsDefault, h.namesNodup,
   h.listsNodup, h.scratchAllocated, h.scratchUnlisted, h.exactlyOne⟩

theorem Inv.withCW {s : ManagerState} (h : Inv s) (cw : Option Nat) :
    Inv { s with current_workspace := cw } :=
  ⟨h.allocBound, h.tableSound, h.listedTracked, h.outWsDefault, h.namesNodup,
   h.listsNodup, h.scratchAllocated, h.scratchUnlisted, h.exactlyOne⟩

theorem inv_onWindowFocus {s : ManagerState} (cid : Nat) (uf : Bool) (h : Inv s) :
    Inv (onWindowFocus s cid uf) := by
  rw [onWindowFocus]
  cases s.current_workspace with
  | none => exact h
  | some i =>
    dsimp only
    split
    · exact h
    · split
      · exact h
      · exact h.heapModify (keyPreserving_on_window_focus cid)

theorem inv_onWindowClose {s : ManagerState} (cid : Nat) (h : Inv s) :
    Inv (onWindowClose s cid) := by
  rw [onWindowClose]
  cases s.current_workspace with
  | none => exact h
  | some i => exact h.heapModify (keyPreserving_on_window_close cid)

theorem inv_onWindowMoveFloating {s : ManagerState} (ids : List Nat) (h : Inv s) :
    Inv (onWindowMoveFloating s ids) := by
  rw [onWindowMoveFloating]
  refine inv_foldl _ ?_ _ _ h
  intro s1 b hs1
  refine inv_foldl _ ?_ _ _ hs1
  intro s2 nid hs2
  exact hs2.heapModify (keyPreserving_on_window_close nid)

theorem inv_scratchFold {s : ManagerState} (sp i : Nat) (oldNodes : List Nat) (h : Inv s) :
    Inv (oldNodes.foldl (fun st nid =>
      heapModify (heapModify st sp (fun w => w.on_window_focus nid)) i
        (fun w => w.on_window_close nid)) (heapModify s sp Workspace.clear)) := by
  refine inv_foldl _ ?_ _ _ (h.heapModify keyPreserving_clear)
  intro s1 nid hs1
  exact (hs1.heapModify (keyPreserving_on_window_focus nid)).heapModify
    (keyPreserving_on_window_close nid)

theorem inv_onWorkspaceFocus {s s' : ManagerState} (num : Int) (name : String) (o : String)
    (oldScratch : Bool) (oldNodes : List Nat) (h : Inv s)
    (hleg : (s.table (num, name)).isSome)
    (hres : onWorkspaceFocus s num name o oldScratch oldNodes = some s') : Inv s' := by
  obtain ⟨i, hi⟩ := Option.isSome_iff_exists.mp hleg
  have hi1 : ({ getOutput s o with current_output := some o } : ManagerState).table (num, name)
      = some i := by
    show (getOutput s o).table (num, name) = some i
    rw [getOutput_table]
    exact hi
  have hInv2 : Inv ({ ({ getOutput s o with current_output := some o } : ManagerState) with
      current_workspace := some i }) :=
    (((h.getOutput o).withCO (some o)).withCW (some i))
  simp only [onWorkspaceFocus, getWorkspace_found hi1] at hres
  split at hres
  · split at hres
    · exact absurd hres (by simp)
    · rw [Option.some.injEq] at hres
      subst hres
      exact inv_scratchFold _ _ oldNodes hInv2
  · rw [Option.some.injEq] at hres
    subst hres
    exact hInv2

theorem keyOf_update_ne {hp : Nat → Option Workspace} {v : Option Workspace} {m j : Nat}
    (h : j ≠ m) : keyOf (Function.update hp m v) j = keyOf hp j := by
  unfold keyOf
  rw [Function.update_noteq h]

theorem keyOf_update_same (hp : Nat → Option Workspace) (m : Nat) (w : Workspace) :
    keyOf (Function.update hp m (some w)) m = (w.num, w.name) := by
  unfold keyOf
  rw [Function.update_same]

theorem Inv.keyOf_tracked {s : ManagerState} {k : WsKey} {i : Nat}
    (h : Inv s) (ht : s.table k = some i) : keyOf s.heap i = k := by
  obtain ⟨w, hw, hkw⟩ := h.tableSound k i ht
  unfold keyOf
  rw [hw]
  exact hkw

theorem eraseFirstKey_spec {hp : Nat → Option Workspace} {k : WsKey} {i : Nat}
    (hik : keyOf hp i = k) :
    ∀ {l : List Nat}, (∀ j ∈ l, keyOf hp j = k → j = i) →
      eraseFirstKey hp k l = l.erase i
  | [], _ => by simp [eraseFirstKey]
  | j :: r, huniq => by
      rw [eraseFirstKey]
      by_cases hj : keyOf hp j = k
      · have hji : j = i := huniq j (List.mem_cons_self _ _) hj
        subst hji
        rw [if_pos hj, List.erase_cons_head]
      · have hji : j ≠ i := fun he => hj (he ▸ hik)
        rw [if_neg hj, List.erase_cons_tail, eraseFirstKey_spec hik
          (fun a ha hk => huniq a (List.mem_cons_of_mem _ ha) hk)]
        simpa using hji

theorem two_le_length_of_mem {α : Type} {l : List α} {a b : α}
    (ha : a ∈ l) (hb : b ∈ l) (hab : a ≠ b) : 2 ≤ l.length := by
  cases l with
  | nil => simp at ha
  | cons x t =>
    simp only [List.length_cons]
    rcases List.mem_cons.mp ha with rfl | hat
    · rcases List.mem_cons.mp hb with rfl | hbt
      · exact absurd rfl hab
      · have := List.length_pos.mpr (List.ne_nil_of_mem hbt)
        omega
    · have := List.length_pos.mpr (List.ne_nil_of_mem hat)
      omega

theorem memCount_ge_two {s : ManagerState} {i : Nat} {o n : String}
    (ho : o ∈ s.outputNames) (hn : n ∈ s.outputNames)
    (hon : o ≠ n) (hio : i ∈ s.outWs o) (hin : i ∈ s.outWs n) :
    2 ≤ memCount s i := by
  rw [memCount]
  exact two_le_length_of_mem
    (List.mem_filter.mpr ⟨ho, by simpa using hio⟩)
    (List.mem_filter.mpr ⟨hn, by simpa using hin⟩) hon

theorem tablePop_table (t : ManagerState) (k : WsKey) :
    (tablePop t k).table = Function.update t.table k none := rfl

theorem tablePop_outWs (t : ManagerState) (k : WsKey) : (tablePop t k).outWs = t.outWs := rfl

theorem tablePop_outputNames (t : ManagerState) (k : WsKey) :
    (tablePop t k).outputNames = t.outputNames := rfl

theorem inv_onWorkspaceEmpty {s s' : ManagerState} (num : Int) (name : String) (o : String)
    (h : Inv s) (hres : onWorkspaceEmpty s num name o = some s') : Inv s' := by
  have hInv1 : Inv (getOutput s o) := h.getOutput o
  simp only [onWorkspaceEmpty] at hres
  cases htab : (getOutput s o).table (num, name) with
  | none =>
    rw [getWorkspace_create htab] at hres
    dsimp only at hres
    split at hres
    · rename_i hcond
      exfalso
      obtain ⟨j, hjmem, hjeq⟩ := List.any_eq_true.mp hcond
      have hjlt := hInv1.listed_lt_nextId hjmem
      rw [beq_iff_eq, keyOf_update_ne (by omega),
        keyOf_update_same (getOutput s o).heap (getOutput s o).nextId ⟨num, name, []⟩] at hjeq
      obtain ⟨kj, hkj⟩ := hInv1.listedTracked o j hjmem
      have hkey_j := hInv1.keyOf_tracked hkj
      rw [hkey_j] at hjeq
      rw [hjeq, htab] at hkj
      exact Option.noConfusion hkj
    · exact absurd hres (by simp)
  | some i =>
    rw [getWorkspace_found htab] at hres
    dsimp only at hres
    have hkey : keyOf (getOutput s o).heap i = (num, name) := hInv1.keyOf_tracked htab
    rw [hkey] at hres
    have huniq : ∀ j ∈ (getOutput s o).outWs o, keyOf (getOutput s o).heap j = (num, name)
        → j = i := by
      intro j hjmem hjeq
      obtain ⟨kj, hkj⟩ := hInv1.listedTracked o j hjmem
      have hkey_j := hInv1.keyOf_tracked hkj
      rw [hkey_j] at hjeq
      rw [hjeq, htab, Option.some.injEq] at hkj
      exact hkj.symm
    split at hres
    · rename_i hcond
      obtain ⟨j0, hj0mem, hj0eq⟩ := List.any_eq_true.mp hcond
      rw [beq_iff_eq] at hj0eq
      have hj0i : j0 = i := huniq j0 hj0mem hj0eq
      have hmem_i : i ∈ (getOutput s o).outWs o := hj0i ▸ hj0mem
      have hscr : (getOutput s o).scratchpad ≠ some i :=
        fun he => hInv1.scratchUnlisted i o he hmem_i
      have ho_names : o ∈ (getOutput s o).outputNames := mem_getOutput_outputNames s o
      have hnodupo := hInv1.listsNodup o
      rw [eraseFirstKey_spec hkey huniq, Option.some.injEq] at hres
      subst hres
      -- characterize membership in the new lists
      have hmem' : ∀ (x : Nat) (n : String),
          x ∈ Function.update (getOutput s o).outWs o (((getOutput s o).outWs o).erase i) n
          ↔ (x ∈ (getOutput s o).outWs n ∧ ¬(n = o ∧ x = i)) := by
        intro x n
        by_cases hn : n = o
        · subst hn
          rw [Function.update_same, List.Nodup.mem_erase_iff hnodupo]
          tauto
        · rw [Function.update_noteq hn]
          simp [hn]
      have hkne : ∀ {k' : WsKey} {j : Nat},
          (getOutput s o).table k' = some j → j ≠ i → k' ≠ ((num, name) : WsKey) := by
        intro k' j ht hji he
        subst he
        rw [htab, Option.some.injEq] at ht
        exact hji ht.symm
      refine ⟨hInv1.allocBound, ?_, ?_, ?_, hInv1.namesNodup, ?_, hInv1.scratchAllocated,
        ?_, ?_⟩
      · intro k' j ht
        have hk'ne : k' ≠ ((num, name) : WsKey) := by
          intro he
          subst he
          rw [tablePop_table] at ht
          dsimp only at ht
          rw [Function.update_same] at ht
          exact Option.noConfusion ht
        rw [tablePop_table] at ht
        dsimp only at ht
        rw [Function.update_noteq hk'ne] at ht
        exact hInv1.tableSound k' j ht
      · intro n j hjm
        have hjm' := (hmem' j n).mp hjm
        obtain ⟨kj, hkj⟩ := hInv1.listedTracked n j hjm'.1
        have hji : j ≠ i := by
          intro he
          subst he
          by_cases hn : n = o
          · exact hjm'.2 ⟨hn, rfl⟩
          · have hn_names : n ∈ (getOutput s o).outputNames := by
              by_contra hc
              rw [hInv1.outWsDefault n hc] at hjm'
              simp at hjm'
            have h2 := memCount_ge_two ho_names hn_names (fun he2 => hn he2.symm)
              hmem_i hjm'.1
            rw [hInv1.exactlyOne _ _ htab hscr] at h2
            omega
        have hkjne : kj ≠ ((num, name) : WsKey) := hkne hkj hji
        refine ⟨kj, ?_⟩
        rw [tablePop_table]
        dsimp only
        rw [Function.update_noteq hkjne]
        exact hkj
      · intro n hn
        have hno : n ≠ o := fun he => hn (he ▸ ho_names)
        show Function.update (getOutput s o).outWs o _ n = []
        rw [Function.update_noteq hno]
        exact hInv1.outWsDefault n hn
      · intro n
        show (Function.update (getOutput s o).outWs o _ n).Nodup
        by_cases hn : n = o
        · subst hn
          rw [Function.update_same]
          exact hnodupo.erase i
        · rw [Function.update_noteq hn]
          exact hInv1.listsNodup n
      · intro sp n hsp
        rw [tablePop_outWs]
        dsimp only
        rw [hmem' sp n]
        push_neg
        intro hm
        exact absurd hm (hInv1.scratchUnlisted sp n hsp)
      · intro k' j ht hsp
        have hk'ne : k' ≠ ((num, name) : WsKey) := by
          intro he
          subst he
          rw [tablePop_table] at ht
          dsimp only at ht
          rw [Function.update_same] at ht
          exact Option.noConfusion ht
        rw [tablePop_table] at ht
        dsimp only at ht
        rw [Function.update_noteq hk'ne] at ht
        have hji : j ≠ i := fun he => hk'ne (hInv1.table_inj ht (he ▸ htab))
        have hmc : memCount (tablePop { getOutput s o with
            outWs := Function.update (getOutput s o).outWs o
              (((getOutput s o).outWs o).erase i) } ((num : Int), name)) j
            = memCount (getOutput s o) j := by
          apply memCount_congr
          · rfl
          · intro n
            rw [tablePop_outWs]
            dsimp only
            rw [hmem' j n]
            constructor
            · exact fun hx => hx.1
            · intro hx
              exact ⟨hx, fun hc => hji hc.2⟩
        rw [hmc]
        exact hInv1.exactlyOne k' j ht hsp
    · exact absurd hres (by simp)

theorem inv_onWorkspaceRename {s s' : ManagerState} (num : Int) (name : String)
    (h : Inv s) (hleg : legalEv s (.wsRename num name) = true)
    (hres : onWorkspaceRename s num name = some s') : Inv s' := by
  cases hcw : s.current_workspace with
  | none =>
    simp only [onWorkspaceRename, hcw, Option.some.injEq] at hres
    subst hres
    exact h
  | some i =>
    rw [legalEv] at hleg
    rw [hcw] at hleg
    simp only [Bool.and_eq_true, Bool.or_eq_true, beq_iff_eq,
      Option.isNone_iff_eq_none] at hleg
    obtain ⟨htraki, hnew⟩ := hleg
    obtain ⟨w, hw, hkw⟩ := h.tableSound _ _ htraki
    have hkey : keyOf s.heap i = (w.num, w.name) := by
      unfold keyOf
      rw [hw]
    rw [hkey] at htraki hnew
    have hilt : i < s.nextId := h.tracked_lt_nextId htraki
    cases hco : s.current_output with
    | none =>
      simp only [onWorkspaceRename, hcw, hkey, tablePop, I3M.heapModify, tableInsert,
        hco] at hres
      exact absurd hres (by simp)
    | some o =>
      simp only [onWorkspaceRename, hcw, hkey, tablePop, I3M.heapModify, tableInsert, hco,
        Option.some.injEq] at hres
      subst hres
      have hh2i : Function.update s.heap i
          (Option.map (fun w0 => { w0 with num := num, name := name }) (s.heap i)) i
          = some { w with num := num, name := name } := by
        rw [Function.update_same, hw]
        rfl
      have hmemiff : ∀ (x : Nat) (n : String),
          x ∈ Function.update s.outWs o (sortByNum (Function.update s.heap i
            (Option.map (fun w0 => { w0 with num := num, name := name }) (s.heap i)))
            (s.outWs o)) n ↔ x ∈ s.outWs n := by
        intro x n
        by_cases hn : n = o
        · subst hn
          rw [Function.update_same, mem_sortByNum]
        · rw [Function.update_noteq hn]
      refine ⟨?_, ?_, ?_, ?_, h.namesNodup, ?_, ?_, ?_, ?_⟩
      · intro j hj
        dsimp only at hj ⊢
        have hji : j ≠ i := by omega
        rw [Function.update_noteq hji]
        exact h.allocBound j hj
      · intro k' j ht
        dsimp only at ht ⊢
        by_cases hk' : k' = ((num, name) : WsKey)
        · subst hk'
          rw [Function.update_same, Option.some.injEq] at ht
          subst ht
          exact ⟨{ w with num := num, name := name }, hh2i, rfl⟩
        · rw [Function.update_noteq hk'] at ht
          by_cases hk'w : k' = ((w.num, w.name) : WsKey)
          · subst hk'w
            rw [Function.update_same] at ht
            exact Option.noConfusion ht
          · rw [Function.update_noteq hk'w] at ht
            have hji : j ≠ i := fun he => hk'w (h.table_inj ht (he ▸ htraki))
            obtain ⟨w', hw', hkw'⟩ := h.tableSound _ _ ht
            exact ⟨w', by rw [Function.update_noteq hji]; exact hw', hkw'⟩
      · intro n j hjm
        dsimp only at hjm ⊢
        rw [hmemiff j n] at hjm
        obtain ⟨kj, hkj⟩ := h.listedTracked n j hjm
        by_cases hji : j = i
        · subst hji
          exact ⟨(num, name), by rw [Function.update_same]⟩
        · have hkjw : kj ≠ ((w.num, w.name) : WsKey) := by
            intro he
            rw [he, htraki, Option.some.injEq] at hkj
            exact hji hkj.symm
          have hkjn : kj ≠ ((num, name) : WsKey) := by
            rcases hnew with hnone | heq
            · intro he
              rw [he, hnone] at hkj
              exact Option.noConfusion hkj
            · exact fun he => hkjw (he.trans heq)
          refine ⟨kj, ?_⟩
          rw [Function.update_noteq hkjn, Function.update_noteq hkjw]
          exact hkj
      · intro n hn
        dsimp only
        by_cases hno : n = o
        · subst hno
          rw [Function.update_same, h.outWsDefault n hn]
          rfl
        · rw [Function.update_noteq hno]
          exact h.outWsDefault n hn
      · intro n
        dsimp only
        by_cases hno : n = o
        · subst hno
          rw [Function.update_same, (sortByNum_perm _ _).nodup_iff]
          exact h.listsNodup n
        · rw [Function.update_noteq hno]
          exact h.listsNodup n
      · intro sp hsp
        dsimp only at hsp ⊢
        have hs := h.scratchAllocated sp hsp
        by_cases hspi : sp = i
        · subst hspi
          rw [hh2i]
          rfl
        · rw [Function.update_noteq hspi]
          exact hs
      · intro sp n hsp
        dsimp only at hsp ⊢
        rw [hmemiff sp n]
        exact h.scratchUnlisted sp n hsp
      · intro k' j ht hsp
        dsimp only at ht hsp ⊢
        have hfin : memCount s j = 1 := by
          by_cases hk' : k' = ((num, name) : WsKey)
          · subst hk'
            rw [Function.update_same, Option.some.injEq] at ht
            subst ht
            exact h.exactlyOne _ _ htraki hsp
          · rw [Function.update_noteq hk'] at ht
            by_cases hk'w : k' = ((w.num, w.name) : WsKey)
            · subst hk'w
              rw [Function.update_same] at ht
              exact Option.noConfusion ht
            · rw [Function.update_noteq hk'w] at ht
              exact h.exactlyOne _ _ ht hsp
        rw [← hfin]
        apply memCount_congr
        · rfl
        · exact fun n => hmemiff j n

theorem inv_onWindowMoveReconcile {s s' : ManagerState} (cid : Nat) (found : Option WsKey)
    (h : Inv s) (hleg : legalEv s (.winMoveReconcile cid found) = true)
    (hres : onWindowMoveReconcile s cid found = some s') : Inv s' := by
  rw [onWindowMoveReconcile.eq_def] at hres
  cases found with
  | none =>
    dsimp only at hres
    rw [Option.some.injEq] at hres
    subst hres
    exact h
  | some k =>
    rw [legalEv] at hleg
    obtain ⟨i, hi⟩ := Option.isSome_iff_exists.mp hleg
    dsimp only at hres
    rw [getWorkspace_found hi] at hres
    dsimp only at hres
    cases hcl : (tableValues s).find? (fun j => hasCon s j cid) with
    | none =>
      rw [hcl] at hres
      exact absurd hres (by simp)
    | some c =>
      rw [hcl] at hres
      dsimp only at hres
      split at hres
      · rw [Option.some.injEq] at hres
        subst hres
        exact h
      · rw [Option.some.injEq] at hres
        subst hres
        exact (h.heapModify (keyPreserving_on_window_close cid)).heapModify
          (keyPreserving_on_window_focus cid)

theorem inv_applyEv {s s' : ManagerState} {e : Ev} (h : Inv s)
    (hleg : legalEv s e = true) (hres : applyEv s e = some s') : Inv s' := by
  cases e with
  | wsInit num name o =>
    rw [applyEv, Option.some.injEq] at hres
    subst hres
    rw [legalEv] at hleg
    exact inv_onWorkspaceInit num name o h (Option.isNone_iff_eq_none.mp hleg)
  | wsFocus num name o osc onodes =>
    rw [applyEv] at hres
    rw [legalEv] at hleg
    exact inv_onWorkspaceFocus num name o osc onodes h hleg hres
  | wsEmpty num name o =>
    rw [applyEv] at hres
    exact inv_onWorkspaceEmpty num name o h hres
  | wsRename num name =>
    rw [applyEv] at hres
    exact inv_onWorkspaceRename num name h hleg hres
  | winFocus cid uf =>
    rw [applyEv, Option.some.injEq] at hres
    subst hres
    exact inv_onWindowFocus cid uf h
  | winClose cid =>
    rw [applyEv, Option.some.injEq] at hres
    subst hres
    exact inv_onWindowClose cid h
  | winMoveFloating ids =>
    rw [applyEv, Option.some.injEq] at hres
    subst hres
    exact inv_onWindowMoveFloating ids h
  | winMoveReconcile cid found =>
    rw [applyEv] at hres
    exact inv_onWindowMoveReconcile cid found h hleg hres

theorem inv_runLegal : ∀ (evs : List Ev) (s s' : ManagerState), Inv s →
    runLegal s evs = some s' → Inv s'
  | [], s, s', h, hres => by
      rw [runLegal, Option.some.injEq] at hres
      exact hres ▸ h
  | e :: es, s, s', h, hres => by
      rw [runLegal] at hres
      split at hres
      · rename_i hleg
        cases happ : applyEv s e with
        | none =>
          rw [happ] at hres
          exact absurd hres (by simp)
        | some s2 =>
          rw [happ] at hres
          rw [Option.some_bind] at hres
          exact inv_runLegal es s2 s' (inv_applyEv h hleg happ) hres
      · exact absurd hres (by simp)

/-! ### Tree bootstrap (`Manager._init`) -/

/-- A node of the window-manager layout tree, with the payload fields the
walk reads: `type`, `name`, `num`, the con id, whether `node.window` and
`node.pid` are set, `node.focused`, and the `nodes` / `floating_nodes`
children. -/
inductive Node where
  | node (ntype : String) (nname : String) (nnum : Int) (cid : Nat)
      (window : Bool) (pid : Bool) (focused : Bool)
      (children : List Node) (floating : List Node)

/-- The transient walk state of `_walk_tree` (`State.current_output`,
`State.current_workspace`), the manager state, and the
`rename_workspaces` queue (output name, workspace id). -/
structure WalkState where
  ms : ManagerState
  curOut : Option String
  curWs : Option Nat
  renames : List (String × Nat)

/-- Structural prefix test on char lists (model of `str.startswith`). -/
def chPre : List Char → List Char → Bool
  | [], _ => true
  | _ :: _, [] => false
  | p :: ps, c :: cs => p == c && chPre ps cs

/-- Embeds `str.startswith`: does `s` start with `pre`? -/
def pyStartsWith (s pre : String) : Bool := chPre pre.data s.data

/-- The branch dispatch of `_walk_tree` on one node (everything before the
recursive walk of the children); `none` models the `AttributeError` when a
workspace node is met with no current output.  `cfg` is
`get_output_start` (per-output configured band start, default 1). -/
def walkStep (cfg : String → Int) (ntype nname : String) (nnum : Int) (cid : Nat)
    (window pid focused : Bool) (w : WalkState) : Option WalkState :=
  if ntype = "output" ∧ ¬ pyStartsWith nname "__i3" then
    some { w with ms := getOutput w.ms nname, curOut := some nname }
  else if ntype = "workspace" ∧ ¬ pyStartsWith nname "__i3" then
    match w.curOut with
    | none => none
    | some o =>
      let p := getWorkspace w.ms (nnum, nname)
      let ms1 := addWorkspace p.1 o p.2
      let start := cfg o
      let ms2 := if focused then
          { ms1 with current_output := some o, current_workspace := some p.2 }
        else ms1
      let rq := if ¬ (start ≤ numOf ms1.heap p.2 ∧ numOf ms1.heap p.2 < start + 100)
        then w.renames ++ [(o, p.2)] else w.renames
      some { w with
              ms := ms2
              curWs := some p.2
              renames := rq }
  else if ntype = "workspace" ∧ nname = "__i3_scratch" then
    let p := getWorkspace w.ms (nnum, nname)
    some { w with ms := { p.1 with scratchpad := some p.2 }, curWs := some p.2 }
  else if ntype = "con" ∧ (window ∨ pid) then
    match w.curWs with
    | none => some w
    | some cw =>
      let ms1 := if focused then
          { w.ms with current_output := w.curOut, current_workspace := some cw }
        else w.ms
      some { w with ms := heapModify ms1 cw (fun x => x.on_window_focus cid) }
  else some w

mutual

/-- Embeds `_walk_tree` on one node: the branch dispatch (`walkStep`),
then the recursive walk of `nodes` and `floating_nodes`. -/
def walkNode (cfg : String → Int) : Node → WalkState → Option WalkState
  | .node ntype nname nnum cid window pid focused children floating, w =>
    match walkStep cfg ntype nname nnum cid window pid focused w with
    | none => none
    | some w2 =>
      match walkNodes cfg children w2 with
      | none => none
      | some w3 => walkNodes cfg floating w3

/-- Walk a list of sibling nodes in order. -/
def walkNodes (cfg : String → Int) : List Node → WalkState → Option WalkState
  | [], w => some w
  | n :: rest, w =>
    match walkNode cfg n w with
    | none => none
    | some w2 => walkNodes cfg rest w2

end

/-- Embeds the tree walk of `Manager._init`, from the freshly constructed
manager. -/
def bootstrapWalk (cfg : String → Int) (root : Node) : Option WalkState :=
  walkNode cfg root ⟨initState, none, none, []⟩

/-- The rename commands the renumbering loop of `Manager._init` issues for
the queue collected by the walk (issuing commands does not mutate the
model; the used-number set is `set(ws.num for ws in output.workspaces)`). -/
def bootstrapRenames (w : WalkState) (cfg : String → Int) : List String :=
  w.renames.filterMap (fun pr =>
    renumberStep (cfg pr.1) ((w.ms.outWs pr.1).map (numOf w.ms.heap)).toFinset
      (numOf w.ms.heap pr.2) (nameOf w.ms.heap pr.2))

/-- The `(num, name)` key a `walkStep` registers in the `workspaces`
table, when the node is a registered workspace node. -/
def stepKeys (ntype nname : String) (nnum : Int) : List WsKey :=
  if ntype = "workspace" ∧ (¬ pyStartsWith nname "__i3" ∨ nname = "__i3_scratch")
    then [((nnum : Int), nname)] else []

/-- Whether the node is the scratch workspace node. -/
def stepScratch (ntype nname : String) : Nat :=
  if ntype = "workspace" ∧ nname = "__i3_scratch" then 1 else 0

mutual

/-- The `(num, name)` keys of the workspace nodes the walk registers in
the `workspaces` table, in walk order. -/
def wsKeysOf : Node → List WsKey
  | .node ntype nname nnum _ _ _ _ children floating =>
    stepKeys ntype nname nnum ++ (wsKeysOfList children ++ wsKeysOfList floating)

def wsKeysOfList : List Node → List WsKey
  | [] => []
  | n :: rest => wsKeysOf n ++ wsKeysOfList rest

end

mutual

/-- Number of `__i3_scratch` workspace nodes in the tree. -/
def scratchCount : Node → Nat
  | .node ntype nname _ _ _ _ _ children floating =>
    stepScratch ntype nname + (scratchCountList children + scratchCountList floating)

def scratchCountList : List Node → Nat
  | [] => 0
  | n :: rest => scratchCount n + scratchCountList rest

end

/-- Well-formedness of a bootstrap tree: the registered workspace keys are
pairwise distinct and there is at most one scratch workspace node. -/
def WFtree (root : Node) : Prop :=
  (wsKeysOf root).Nodup ∧ scratchCount root ≤ 1

/-- Invariant carried through the walk: the manager state invariant, and
the transient current output (when set) is registered. -/
structure WInv (w : WalkState) : Prop where
  inv : Inv w.ms
  curOutReg : ∀ o, w.curOut = some o → o ∈ w.ms.outputNames

theorem getWorkspace_fst_outputNames (s : ManagerState) (k : WsKey) :
    (getWorkspace s k).1.outputNames = s.outputNames := by
  cases h : s.table k with
  | none => rw [getWorkspace_create h]
  | some i => rw [getWorkspace_found h]

theorem getWorkspace_fst_scratchpad (s : ManagerState) (k : WsKey) :
    (getWorkspace s k).1.scratchpad = s.scratchpad := by
  cases h : s.table k with
  | none => rw [getWorkspace_create h]
  | some i => rw [getWorkspace_found h]

theorem addWorkspace_table (s : ManagerState) (o : String) (i : Nat) :
    (addWorkspace s o i).table = s.table := rfl

theorem addWorkspace_outputNames (s : ManagerState) (o : String) (i : Nat) :
    (addWorkspace s o i).outputNames = s.outputNames := rfl

theorem addWorkspace_scratchpad (s : ManagerState) (o : String) (i : Nat) :
    (addWorkspace s o i).scratchpad = s.scratchpad := rfl

theorem Inv.withCurrents {s : ManagerState} (h : Inv s) (co : Option String)
    (cw : Option Nat) :
    Inv { s with current_output := co, current_workspace := cw } :=
  ⟨h.allocBound, h.tableSound, h.listedTracked, h.outWsDefault, h.namesNodup,
   h.listsNodup, h.scratchAllocated, h.scratchUnlisted, h.exactlyOne⟩

/-- The scratch branch of the walk: get-or-create the scratch workspace
and point `scratchpad` at it; with a fresh key and no previous scratchpad
the invariant is preserved. -/
theorem inv_scratchRegister {s : ManagerState} {k : WsKey} (h : Inv s)
    (hfresh : s.table k = none) (hsc : s.scratchpad = none) :
    Inv { (getWorkspace s k).1 with scratchpad := some (getWorkspace s k).2 } := by
  have hE := invE_create h hfresh
  have hi2 : (getWorkspace s k).2 = s.nextId := by
    rw [getWorkspace_create hfresh]
  rw [hi2]
  have hsc1 : (getWorkspace s k).1.scratchpad = none := by
    rw [getWorkspace_fst_scratchpad]
    exact hsc
  refine ⟨hE.allocBound, hE.tableSound, hE.listedTracked, hE.outWsDefault, hE.namesNodup,
    hE.listsNodup, ?_, ?_, ?_⟩
  · intro j hsp
    have hj : j = s.nextId := by
      have : some s.nextId = some j := hsp
      exact (Option.some.inj this).symm
    subst hj
    obtain ⟨k0, hk0⟩ := hE.tracked
    obtain ⟨w0, hw0, _⟩ := hE.tableSound _ _ hk0
    show ((getWorkspace s k).1.heap s.nextId).isSome = true
    rw [hw0]
    rfl
  · intro j n hsp
    have hj : j = s.nextId := by
      have : some s.nextId = some j := hsp
      exact (Option.some.inj this).symm
    subst hj
    exact hE.unlisted n
  · intro k' j ht hsp
    have hji : j ≠ s.nextId := by
      intro he
      subst he
      exact hsp rfl
    have hscr : (getWorkspace s k).1.scratchpad ≠ some j := by
      rw [hsc1]
      simp
    exact hE.exactlyOneE k' j ht hscr hji

/-- One `walkStep` preserves the walk invariant; the table grows only by
the step's registered key; the scratchpad is unchanged unless the node is
the scratch workspace. -/
theorem walkStep_inv {cfg : String → Int} {ntype nname : String} {nnum : Int} {cid : Nat}
    {window pid focused : Bool} {w w2 : WalkState}
    (hW : WInv w)
    (hfresh : ∀ k ∈ stepKeys ntype nname nnum, w.ms.table k = none)
    (hsc : w.ms.scratchpad = none ∨ stepScratch ntype nname = 0)
    (hres : walkStep cfg ntype nname nnum cid window pid focused w = some w2) :
    WInv w2 ∧
    (∀ k, w2.ms.table k ≠ none → w.ms.table k ≠ none ∨ k ∈ stepKeys ntype nname nnum) ∧
    (stepScratch ntype nname = 0 → w2.ms.scratchpad = w.ms.scratchpad) := by
  rw [walkStep] at hres
  by_cases h1 : ntype = "output" ∧ ¬ pyStartsWith nname "__i3"
  · rw [if_pos h1, Option.some.injEq] at hres
    subst hres
    refine ⟨⟨hW.inv.getOutput nname, ?_⟩, ?_, ?_⟩
    · intro o ho
      have : o = nname := Option.some.inj ho.symm
      subst this
      exact mem_getOutput_outputNames _ _
    · intro k hk
      left
      have hk2 : (getOutput w.ms nname).table k ≠ none := hk
      rwa [getOutput_table] at hk2
    · intro _
      exact getOutput_scratchpad w.ms nname
  · rw [if_neg h1] at hres
    by_cases h2 : ntype = "workspace" ∧ ¬ pyStartsWith nname "__i3"
    · rw [if_pos h2] at hres
      have hkeys : stepKeys ntype nname nnum = [((nnum : Int), nname)] := by
        rw [stepKeys, if_pos ⟨h2.1, Or.inl h2.2⟩]
      have hscr0 : stepScratch ntype nname = 0 := by
        rw [stepScratch, if_neg]
        intro hc
        exact h2.2 (by rw [hc.2]; decide)
      have hkfresh : w.ms.table (nnum, nname) = none := by
        apply hfresh
        rw [hkeys]
        exact List.mem_singleton.mpr rfl
      cases hco : w.curOut with
      | none =>
        rw [hco] at hres
        exact absurd hres (by simp)
      | some o =>
        rw [hco] at hres
        dsimp only at hres
        rw [Option.some.injEq] at hres
        have hp2 : (getWorkspace w.ms (nnum, nname)).2 = w.ms.nextId := by
          rw [getWorkspace_create hkfresh]
        have hms : w2.ms = (if focused then
            { addWorkspace (getWorkspace w.ms (nnum, nname)).1 o
                (getWorkspace w.ms (nnum, nname)).2 with
              current_output := some o
              current_workspace := some (getWorkspace w.ms (nnum, nname)).2 }
          else addWorkspace (getWorkspace w.ms (nnum, nname)).1 o
            (getWorkspace w.ms (nnum, nname)).2) := by
          rw [← hres]
        have hco2 : w2.curOut = w.curOut := by
          rw [← hres]
          exact hco.symm
        have hgenNames : (addWorkspace (getWorkspace w.ms (nnum, nname)).1 o
            (getWorkspace w.ms (nnum, nname)).2).outputNames = w.ms.outputNames := by
          rw [addWorkspace_outputNames, getWorkspace_fst_outputNames]
        have hnames : w2.ms.outputNames = w.ms.outputNames := by
          rw [hms]
          split
          · exact hgenNames
          · exact hgenNames
        have hgenTab : (addWorkspace (getWorkspace w.ms (nnum, nname)).1 o
            (getWorkspace w.ms (nnum, nname)).2).table
            = Function.update w.ms.table (nnum, nname) (some w.ms.nextId) := by
          rw [addWorkspace_table, getWorkspace_create hkfresh]
        have htab : w2.ms.table
            = Function.update w.ms.table (nnum, nname) (some w.ms.nextId) := by
          rw [hms]
          split
          · exact hgenTab
          · exact hgenTab
        have hgenSp : (addWorkspace (getWorkspace w.ms (nnum, nname)).1 o
            (getWorkspace w.ms (nnum, nname)).2).scratchpad = w.ms.scratchpad := by
          rw [addWorkspace_scratchpad, getWorkspace_fst_scratchpad]
        have hsp2 : w2.ms.scratchpad = w.ms.scratchpad := by
          rw [hms]
          split
          · exact hgenSp
          · exact hgenSp
        have hInvAdd : Inv (addWorkspace (getWorkspace w.ms (nnum, nname)).1 o
            (getWorkspace w.ms (nnum, nname)).2) := by
          rw [hp2]
          refine inv_addWorkspace (invE_create hW.inv hkfresh) ?_
          rw [getWorkspace_fst_outputNames]
          exact hW.curOutReg o hco
        have hInv2 : Inv w2.ms := by
          rw [hms]
          split
          · exact hInvAdd.withCurrents (some o)
              (some (getWorkspace w.ms (nnum, nname)).2)
          · exact hInvAdd
        refine ⟨⟨hInv2, ?_⟩, ?_, ?_⟩
        · intro o' ho'
          rw [hco2] at ho'
          rw [hnames]
          exact hW.curOutReg o' ho'
        · intro k hk
          rw [htab] at hk
          by_cases hkk : k = ((nnum : Int), nname)
          · right
            rw [hkeys, hkk]
            exact List.mem_singleton.mpr rfl
          · left
            rwa [Function.update_noteq hkk] at hk
        · intro _
          exact hsp2
    · rw [if_neg h2] at hres
      by_cases h3 : ntype = "workspace" ∧ nname = "__i3_scratch"
      · rw [if_pos h3] at hres
        dsimp only at hres
        rw [Option.some.injEq] at hres
        have hkeys : stepKeys ntype nname nnum = [((nnum : Int), nname)] := by
          rw [stepKeys, if_pos ⟨h3.1, Or.inr h3.2⟩]
        have hkfresh : w.ms.table (nnum, nname) = none := by
          apply hfresh
          rw [hkeys]
          exact List.mem_singleton.mpr rfl
        have hscr1 : stepScratch ntype nname = 1 := by
          rw [stepScratch, if_pos h3]
        have hscnone : w.ms.scratchpad = none := by
          rcases hsc with hn | h0
          · exact hn
          · rw [hscr1] at h0
            exact absurd h0 (by omega)
        have hms : w2.ms = { (getWorkspace w.ms (nnum, nname)).1 with
            scratchpad := some (getWorkspace w.ms (nnum, nname)).2 } := by
          rw [← hres]
        have hco2 : w2.curOut = w.curOut := by
          rw [← hres]
        refine ⟨⟨?_, ?_⟩, ?_, ?_⟩
        · rw [hms]
          exact inv_scratchRegister hW.inv hkfresh hscnone
        · intro o' ho'
          rw [hco2] at ho'
          have hn : w2.ms.outputNames = w.ms.outputNames := by
            rw [hms]
            exact getWorkspace_fst_outputNames w.ms (nnum, nname)
          rw [hn]
          exact hW.curOutReg o' ho'
        · intro k hk
          rw [hms] at hk
          have hk3 : (getWorkspace w.ms (nnum, nname)).1.table k ≠ none := hk
          rw [getWorkspace_create hkfresh] at hk3
          dsimp only at hk3
          by_cases hkk : k = ((nnum : Int), nname)
          · right
            rw [hkeys, hkk]
            exact List.mem_singleton.mpr rfl
          · left
            rwa [Function.update_noteq hkk] at hk3
        · intro h0
          rw [hscr1] at h0
          exact absurd h0 (by omega)
      · rw [if_neg h3] at hres
        have hkeys : stepKeys ntype nname nnum = [] := by
          rw [stepKeys, if_neg]
          intro hc
          rcases hc.2 with hns | hsn
          · exact h2 ⟨hc.1, hns⟩
          · exact h3 ⟨hc.1, hsn⟩
        by_cases h4 : ntype = "con" ∧ (window ∨ pid)
        · rw [if_pos h4] at hres
          cases hcw : w.curWs with
          | none =>
            rw [hcw] at hres
            dsimp only at hres
            rw [Option.some.injEq] at hres
            subst hres
            exact ⟨hW, fun k hk => Or.inl hk, fun _ => rfl⟩
          | some cw =>
            rw [hcw] at hres
            dsimp only at hres
            rw [Option.some.injEq] at hres
            have hms : w2.ms = heapModify (if focused then
                { w.ms with
                  current_output := w.curOut
                  current_workspace := some cw }
              else w.ms) cw (fun x => x.on_window_focus cid) := by
              rw [← hres]
            have hco2 : w2.curOut = w.curOut := by
              rw [← hres]
            have htab : w2.ms.table = w.ms.table := by
              rw [hms]
              split
              · rfl
              · rfl
            have hnames : w2.ms.outputNames = w.ms.outputNames := by
              rw [hms]
              split
              · rfl
              · rfl
            have hsp2 : w2.ms.scratchpad = w.ms.scratchpad := by
              rw [hms]
              split
              · rfl
              · rfl
            have hInv2 : Inv w2.ms := by
              rw [hms]
              refine Inv.heapModify ?_ (keyPreserving_on_window_focus cid)
              split
              · exact hW.inv.withCurrents w.curOut (some cw)
              · exact hW.inv
            refine ⟨⟨hInv2, ?_⟩, ?_, ?_⟩
            · intro o' ho'
              rw [hco2] at ho'
              rw [hnames]
              exact hW.curOutReg o' ho'
            · intro k hk
              left
              rwa [htab] at hk
            · intro _
              exact hsp2
        · rw [if_neg h4, Option.some.injEq] at hres
          subst hres
          exact ⟨hW, fun k hk => Or.inl hk, fun _ => rfl⟩

/-- Correctness bundle for a walk segment registering `keys` and holding
`scount` scratch nodes: the invariant holds at the end, the table grows
only by the segment's keys, and the scratchpad is untouched when the
segment has no scratch node. -/
def WalkOk (keys : List WsKey) (scount : Nat) (w w' : WalkState) : Prop :=
  WInv w' ∧
  (∀ k, w'.ms.table k ≠ none → w.ms.table k ≠ none ∨ k ∈ keys) ∧
  (scount = 0 → w'.ms.scratchpad = w.ms.scratchpad)

theorem WalkOk.comp {ka kb : List WsKey} {sa sb : Nat} {w w1 w2 : WalkState}
    (h1 : WalkOk ka sa w w1) (h2 : WalkOk kb sb w1 w2) :
    WalkOk (ka ++ kb) (sa + sb) w w2 := by
  refine ⟨h2.1, ?_, ?_⟩
  · intro k hk
    rcases h2.2.1 k hk with h | h
    · rcases h1.2.1 k h with h' | h'
      · exact Or.inl h'
      · exact Or.inr (List.mem_append_left _ h')
    · exact Or.inr (List.mem_append_right _ h)
  · intro h0
    have ha : sa = 0 := by omega
    have hb : sb = 0 := by omega
    rw [h2.2.2 hb, h1.2.2 ha]

/-- After a correct segment, the preconditions for the next segment hold:
its keys are still fresh and the scratch budget carries over. -/
theorem walkPre {ka kb : List WsKey} {sa sb : Nat} {w w1 : WalkState}
    (h1 : WalkOk ka sa w w1)
    (hfresh : ∀ k ∈ ka ++ kb, w.ms.table k = none)
    (hnd : (ka ++ kb).Nodup)
    (hsc : (w.ms.scratchpad = none ∧ sa + sb ≤ 1) ∨ sa + sb = 0) :
    (∀ k ∈ kb, w1.ms.table k = none) ∧
    ((w1.ms.scratchpad = none ∧ sb ≤ 1) ∨ sb = 0) := by
  have hdisj : ka.Disjoint kb := (List.nodup_append.mp hnd).2.2
  constructor
  · intro k hk
    by_contra hne
    rcases h1.2.1 k hne with h | h
    · exact h (hfresh k (List.mem_append_right _ hk))
    · exact hdisj h hk
  · rcases hsc with ⟨hnone, hle⟩ | h0
    · by_cases hsa : sa = 0
      · left
        constructor
        · rw [h1.2.2 hsa]
          exact hnone
        · omega
      · right
        omega
    · right
      omega

mutual

/-- Walking one node from a state satisfying the invariant, with the
node's keys fresh and distinct and the scratch budget respected, is a
correct segment. -/
theorem walkNode_inv (cfg : String → Int) (n : Node) (w w' : WalkState)
    (hW : WInv w)
    (hfresh : ∀ k ∈ wsKeysOf n, w.ms.table k = none)
    (hnd : (wsKeysOf n).Nodup)
    (hsc : (w.ms.scratchpad = none ∧ scratchCount n ≤ 1) ∨ scratchCount n = 0)
    (hres : walkNode cfg n w = some w') :
    WalkOk (wsKeysOf n) (scratchCount n) w w' := by
  cases n with
  | node ntype nname nnum cid window pid focused children floating =>
    rw [walkNode] at hres
    rw [wsKeysOf] at hfresh hnd ⊢
    rw [scratchCount] at hsc ⊢
    cases hstep : walkStep cfg ntype nname nnum cid window pid focused w with
    | none =>
      rw [hstep] at hres
      exact absurd hres (by simp)
    | some w1 =>
      rw [hstep] at hres
      dsimp only at hres
      have hok1 : WalkOk (stepKeys ntype nname nnum) (stepScratch ntype nname) w w1 := by
        have hfs : ∀ k ∈ stepKeys ntype nname nnum, w.ms.table k = none :=
          fun k hk => hfresh k (List.mem_append_left _ hk)
        have hscs : w.ms.scratchpad = none ∨ stepScratch ntype nname = 0 := by
          rcases hsc with ⟨hn, _⟩ | h0
          · exact Or.inl hn
          · exact Or.inr (by omega)
        exact walkStep_inv hW hfs hscs hstep
      have hpre1 := walkPre hok1 hfresh hnd hsc
      cases hch : walkNodes cfg children w1 with
      | none =>
        rw [hch] at hres
        exact absurd hres (by simp)
      | some w3 =>
        rw [hch] at hres
        dsimp only at hres
        have hnd2 : (wsKeysOfList children ++ wsKeysOfList floating).Nodup :=
          (List.nodup_append.mp hnd).2.1
        have hok2 : WalkOk (wsKeysOfList children) (scratchCountList children) w1 w3 := by
          apply walkNodes_inv cfg children w1 w3 hok1.1
          · intro k hk
            exact hpre1.1 k (List.mem_append_left _ hk)
          · exact (List.nodup_append.mp hnd2).1
          · rcases hpre1.2 with ⟨hn, hle⟩ | h0
            · exact Or.inl ⟨hn, by omega⟩
            · exact Or.inr (by omega)
          · exact hch
        have hpre2 := walkPre hok2 hpre1.1 hnd2 hpre1.2
        have hok3 : WalkOk (wsKeysOfList floating) (scratchCountList floating) w3 w' := by
          apply walkNodes_inv cfg floating w3 w' hok2.1
          · exact hpre2.1
          · exact (List.nodup_append.mp hnd2).2.1
          · exact hpre2.2
          · exact hres
        exact hok1.comp (hok2.comp hok3)

/-- Walking a sibling list is a correct segment. -/
theorem walkNodes_inv (cfg : String → Int) (l : List Node) (w w' : WalkState)
    (hW : WInv w)
    (hfresh : ∀ k ∈ wsKeysOfList l, w.ms.table k = none)
    (hnd : (wsKeysOfList l).Nodup)
    (hsc : (w.ms.scratchpad = none ∧ scratchCountList l ≤ 1) ∨ scratchCountList l = 0)
    (hres : walkNodes cfg l w = some w') :
    WalkOk (wsKeysOfList l) (scratchCountList l) w w' := by
  cases l with
  | nil =>
    rw [walkNodes] at hres
    rw [Option.some.injEq] at hres
    subst hres
    exact ⟨hW, fun k hk => Or.inl hk, fun _ => rfl⟩
  | cons n rest =>
    rw [walkNodes] at hres
    rw [wsKeysOfList] at hfresh hnd ⊢
    rw [scratchCountList] at hsc ⊢
    cases hn1 : walkNode cfg n w with
    | none =>
      rw [hn1] at hres
      exact absurd hres (by simp)
    | some w1 =>
      rw [hn1] at hres
      dsimp only at hres
      have hok1 : WalkOk (wsKeysOf n) (scratchCount n) w w1 := by
        apply walkNode_inv cfg n w w1 hW
        · intro k hk
          exact hfresh k (List.mem_append_left _ hk)
        · exact (List.nodup_append.mp hnd).1
        · rcases hsc with ⟨hnone, hle⟩ | h0
          · exact Or.inl ⟨hnone, by omega⟩
          · exact Or.inr (by omega)
        · exact hn1
      have hpre1 := walkPre hok1 hfresh hnd hsc
      have hok2 : WalkOk (wsKeysOfList rest) (scratchCountList rest) w1 w' := by
        apply walkNodes_inv cfg rest w1 w' hok1.1
        · exact hpre1.1
        · exact (List.nodup_append.mp hnd).2.1
        · exact hpre1.2
        · exact hres
      exact hok1.comp hok2

end

theorem inv_initState : Inv initState :=
  ⟨fun _ _ => rfl,
   fun _ _ h => Option.noConfusion h,
   fun _ j h => absurd h (List.not_mem_nil j),
   fun _ _ => rfl,
   List.nodup_nil,
   fun _ => List.nodup_nil,
   fun _ h => Option.noConfusion h,
   fun _ _ h => Option.noConfusion h,
   fun _ _ h _ => Option.noConfusion h⟩

/-- A concrete layout tree: the `__i3` pseudo-output holding the scratch
workspace, and a real output `HDMI0` holding workspace `1` with one
focused window. -/
def demoTree : Node :=
  .node "root" "root" 0 0 false false false
    [.node "output" "__i3" 0 1 false false false
      [.node "con" "content" 0 2 false false false
        [.node "workspace" "__i3_scratch" (-1) 3 false false false [] []] []] [],
     .node "output" "HDMI0" 0 4 false false false
      [.node "con" "content" 0 5 false false false
        [.node "workspace" "1" 1 6 false false false
          [.node "con" "term" 0 42 true false true [] []] []] []] []] []

/-- A concrete legal event sequence: a workspace appears on `HDMI0` and is
focused, a window is focused and closed in it, the current workspace is
renamed, and workspace `1` empties. -/
def demoEvs : List Ev :=
  [.wsInit 2 "2" "HDMI0",
   .wsFocus 2 "2" "HDMI0" false [],
   .winFocus 77 false,
   .winClose 77,
   .wsRename 3 "3",
   .wsEmpty 1 "1" "HDMI0"]

/-- C4 (amended): after the bootstrap walk of a well-formed layout tree
and any sequence of legal events, every workspace tracked in the
`workspaces` dict other than the scratchpad object is a member of exactly
one output's workspace list.  (The original unqualified claim fails on
the scratch workspace, which `_walk_tree` tracks without ever adding it
to an output; see the counterexample.) -/
theorem C4_membership_invariant {cfg : String → Int} {root : Node} {w : WalkState}
    {evs : List Ev} {s' : ManagerState}
    (hwf : WFtree root)
    (hboot : bootstrapWalk cfg root = some w)
    (hrun : runLegal w.ms evs = some s') :
    ∀ k i, s'.table k = some i → s'.scratchpad ≠ some i → memCount s' i = 1 := by
  rw [bootstrapWalk] at hboot
  have hW0 : WInv ⟨initState, none, none, []⟩ :=
    ⟨inv_initState, fun _ ho => Option.noConfusion ho⟩
  have hok := walkNode_inv cfg root ⟨initState, none, none, []⟩ w hW0
    (fun _ _ => rfl) hwf.1 (Or.inl ⟨rfl, hwf.2⟩) hboot
  have hInv2 : Inv s' := inv_runLegal evs w.ms s' hok.1.inv hrun
  exact fun k i hk hsp => hInv2.exactlyOne k i hk hsp

/-- C4 counterexample: bootstrapping a tree holding a scratch workspace
leaves that workspace tracked in the `workspaces` dict yet a member of no
output's workspace list, refuting the unqualified membership claim. -/
theorem C4_counterexample :
    ∃ w, bootstrapWalk (fun _ => 1) demoTree = some w ∧
      w.ms.table (-1, "__i3_scratch") = some 0 ∧
      memCount w.ms 0 = 0 :=
  ⟨_, rfl, rfl, rfl⟩

/-- C4 witness: the amended membership invariant instantiated on the
concrete tree and the concrete legal event sequence. -/
theorem C4_membership_invariant_witness :
    ∃ w s', bootstrapWalk (fun _ => 1) demoTree = some w ∧
      runLegal w.ms demoEvs = some s' ∧
      (∀ k i, s'.table k = some i → s'.scratchpad ≠ some i → memCount s' i = 1) := by
  refine ⟨_, _, rfl, rfl, ?_⟩
  exact @C4_membership_invariant (fun _ => 1) demoTree _ demoEvs _
    ⟨by decide, by decide⟩ rfl rfl

end I3M
